import Mathlib

/-!
Verification development for the classical-cipher key-recovery engine of the
repository (Caesar brute force, monoalphabetic hill climbing / simulated
annealing / genetic search, and their shared English-likeness scoring).

The Python sources are shallowly embedded:
* strings are `List Char`, restricted to the ASCII behaviour of
  `str.upper` / `str.islower` / `str.lower` (the regex `[^A-Za-z]` used by the
  sources is ASCII-only as well, so this is exact on the inputs the programs
  treat as letters);
* Python floats are modelled exactly as `ℚ` (every constant of the sources is
  decimal), except for the one use of `math.exp` in the simulated-annealing
  acceptance test, which is modelled with `Real.exp`;
* Python dicts (which preserve insertion order) are association lists with
  pairwise-distinct keys;
* every use of `random` is replaced by an explicit oracle argument (a function
  from call indices to draws), so theorems can quantify over all draw
  sequences;
* `list.sort(key=..., reverse=True)` (a stable descending sort) is modelled by
  `List.insertionSort` with the relation `score_desc`, which is stable in the
  same sense.
-/

/-- The 26 uppercase ASCII letters, the default `self.dictionary` of the
monoalphabetic decrypt classes. -/
def azUpper : List Char :=
  ['A', 'B', 'C', 'D', 'E', 'F', 'G', 'H', 'I', 'J', 'K', 'L', 'M',
   'N', 'O', 'P', 'Q', 'R', 'S', 'T', 'U', 'V', 'W', 'X', 'Y', 'Z']

/-- The 26 lowercase ASCII letters. -/
def azLower : List Char :=
  ['a', 'b', 'c', 'd', 'e', 'f', 'g', 'h', 'i', 'j', 'k', 'l', 'm',
   'n', 'o', 'p', 'q', 'r', 's', 't', 'u', 'v', 'w', 'x', 'y', 'z']

/-- The character class `[A-Za-z]` of the regex used by the sources. -/
def asciiLetters : List Char := azUpper ++ azLower

/-- ASCII model of Python `str.upper`, character by character. -/
def upperChar (c : Char) : Char := ((azLower.zip azUpper).lookup c).getD c

/-- ASCII model of Python `str.lower`, character by character. -/
def lowerChar (c : Char) : Char := ((azUpper.zip azLower).lookup c).getD c

/-- `re.sub(r'[^A-Za-z]', '', text.upper())`: uppercase, then keep letters. -/
def clean_text (s : List Char) : List Char :=
  (s.map upperChar).filter (fun c => decide (c ∈ asciiLetters))

/-- Distinct elements of a list in order of first occurrence: the iteration
order of the keys of a Python `Counter`/`dict` built by a left-to-right scan,
and the model of `list(set(...))` (whose order CPython leaves unspecified). -/
def firstDedupGo (seen : List Char) : List Char → List Char
  | [] => []
  | c :: rest =>
    if c ∈ seen then firstDedupGo seen rest
    else c :: firstDedupGo (c :: seen) rest

/-- See `firstDedupGo`. -/
def firstDedup (l : List Char) : List Char := firstDedupGo [] l

/-- `Counter(clean_text).items()`: distinct characters in first-occurrence
order, each with its multiplicity. -/
def counter_items (l : List Char) : List (Char × ℕ) :=
  (firstDedup l).map (fun c => (c, l.count c))

/-- `self.lang_freq`: expected English letter percentages (both decrypt
classes and the Caesar class share this table). -/
def lang_freq : List (Char × ℚ) :=
  [('E', 127/10), ('T', 91/10), ('A', 82/10), ('O', 75/10), ('I', 70/10),
   ('N', 67/10), ('S', 63/10), ('H', 61/10), ('R', 60/10), ('D', 43/10),
   ('L', 40/10), ('C', 28/10), ('U', 28/10), ('M', 24/10), ('W', 24/10),
   ('F', 22/10), ('G', 20/10), ('Y', 20/10), ('P', 19/10), ('B', 13/10),
   ('V', 10/10), ('K', 8/10), ('J', 15/100), ('X', 15/100), ('Q', 10/100),
   ('Z', 7/100)]

/-- `self.freq_order`: English letters in canonical frequency order. -/
def freq_order : List Char :=
  ['E', 'T', 'A', 'O', 'I', 'N', 'S', 'H', 'R', 'D',
   'L', 'U', 'C', 'M', 'W', 'F', 'G', 'Y', 'P', 'B',
   'V', 'K', 'J', 'X', 'Q', 'Z']

/-- `self.common_bigrams` (the source list contains `RE` twice; the duplicate
is kept, membership tests are unaffected). -/
def common_bigrams : List (Char × Char) :=
  [('T','H'), ('H','E'), ('I','N'), ('E','R'), ('A','N'), ('R','E'),
   ('E','D'), ('N','D'), ('O','N'), ('E','N'), ('A','T'), ('O','U'),
   ('E','A'), ('H','A'), ('N','G'), ('A','S'), ('O','R'), ('T','I'),
   ('I','S'), ('E','T'), ('I','T'), ('A','R'), ('T','E'), ('S','E'),
   ('A','L'), ('H','I'), ('N','T'), ('R','E'), ('E','S'), ('C','O'),
   ('D','E'), ('T','O'), ('R','A'), ('S','A'), ('R','M'), ('R','O')]

/-- `self.common_trigrams`. -/
def common_trigrams : List (Char × Char × Char) :=
  [('T','H','E'), ('A','N','D'), ('I','N','G'), ('H','E','R'), ('H','A','T'),
   ('H','I','S'), ('T','H','A'), ('E','R','E'), ('F','O','R'), ('E','N','T'),
   ('I','O','N'), ('T','E','R'), ('W','A','S'), ('Y','O','U'), ('I','T','H'),
   ('V','E','R'), ('A','L','L'), ('W','I','T'), ('T','H','I'), ('T','I','O'),
   ('N','D','E'), ('H','A','S'), ('N','C','E'), ('T','I','S'), ('O','F','T'),
   ('S','T','H'), ('M','E','N')]

/-- Python substring test `w in t` (contiguous occurrence anywhere). -/
def contains_sub (t w : List Char) : Bool :=
  t.tails.any (fun s => w.isPrefixOf s)

/-- Number of positions of `t` at which `w` occurs (overlaps counted). -/
def occ_count (w t : List Char) : ℕ :=
  (t.tails.filter (fun s => w.isPrefixOf s)).length

/-- `1.` of `calculate_english_score`: the sum of squared deviations between
observed and expected letter percentages (the score subtracts this). -/
def freq_penalty (clean : List Char) : ℚ :=
  ((counter_items clean).map (fun p =>
    (((p.2 : ℚ) / (clean.length : ℚ)) * 100 - ((lang_freq.lookup p.1).getD 0)) ^ 2)).sum

/-- `2.` of `calculate_english_score`: `len(word) * 10` once for each listed
word occurring as a substring. -/
def word_bonus (words : List (List Char)) (clean : List Char) : ℚ :=
  (words.map (fun w => if contains_sub clean w then (w.length : ℚ) * 10 else 0)).sum

/-- `3.` of `calculate_english_score`: `+5` per window of length 2 that is a
listed common bigram. -/
def bigram_bonus (clean : List Char) : ℚ :=
  ((clean.zip clean.tail).map (fun p => if p ∈ common_bigrams then (5 : ℚ) else 0)).sum

/-- `4.` of `calculate_english_score`: `+8` per window of length 3 that is a
listed common trigram. -/
def trigram_bonus (clean : List Char) : ℚ :=
  ((clean.zip (clean.tail.zip clean.tail.tail)).map (fun p =>
    if p ∈ common_trigrams then (8 : ℚ) else 0)).sum

/-- Common doubled letters `'EFILOSZ'`. -/
def common_doubles : List Char := ['E', 'F', 'I', 'L', 'O', 'S', 'Z']

/-- Less common but possible doubled letters `'BCDHMNPRT'`. -/
def possible_doubles : List Char := ['B', 'C', 'D', 'H', 'M', 'N', 'P', 'R', 'T']

/-- First half of `5.` of `calculate_english_score`: doubled-letter bonus. -/
def double_letter_bonus (clean : List Char) : ℚ :=
  ((clean.zip clean.tail).map (fun p =>
    if p.1 = p.2 then
      if p.1 ∈ common_doubles then (3 : ℚ)
      else if p.1 ∈ possible_doubles then 1
      else -2
    else 0)).sum

/-- The vowels `'AEIOU'`. -/
def vowels : List Char := ['A', 'E', 'I', 'O', 'U']

/-- Second half of `5.` of `calculate_english_score`: vowel-share bonus. -/
def vowel_bonus (clean : List Char) : ℚ :=
  let vowel_count : ℚ := ((clean.filter (fun c => decide (c ∈ vowels))).length : ℚ)
  let r : ℚ := if (0 : ℚ) < (clean.length : ℚ) then vowel_count / (clean.length : ℚ) else 0
  if 3/10 ≤ r ∧ r ≤ 1/2 then 10
  else if 1/4 ≤ r ∧ r ≤ 11/20 then 5
  else -5

/-- `calculate_english_score` of the two monoalphabetic decrypt classes,
parameterised by the class's `common_words` list (the only difference between
`decrypt.py` and `decrypt_improved.py` here). Empty normalized text returns
the sentinel `-1000`. -/
def english_score_with (words : List (List Char)) (text : List Char) : ℚ :=
  let clean := clean_text text
  if clean.length = 0 then -1000
  else
    -freq_penalty clean + word_bonus words clean + bigram_bonus clean +
      trigram_bonus clean + (double_letter_bonus clean + vowel_bonus clean)

namespace Mono

/-- `self.common_words` of `decrypt.py` (the original hill-climbing class). -/
def common_words : List (List Char) :=
  [['A','B','O','U','T'], ['A','F','T','E','R'], ['A','L','L'], ['A','L','S','O'],
   ['A','N','D'], ['A','N','Y'], ['A'], ['A','N'], ['A','R','E'],
   ['B','A','C','K'], ['B','A','D'], ['B','E'],
   ['B','E','C','A','U','S','E'], ['B','U','T'], ['B','Y'], ['C','A','N'],
   ['C','O','M','E'], ['C','O','U','L','D'], ['D','A','Y'], ['D','O'],
   ['E','A','C','H'], ['E','A','R','L','Y'], ['E','V','E','N'], ['F','E','W'],
   ['F','I','R','S','T'], ['F','O','R'], ['F','R','O','M'], ['G','E','T'],
   ['G','I','V','E'], ['G','O','O','D'], ['G','R','O','U','P'], ['H','A','D'],
   ['H','E'], ['H','E','R'], ['H','I','M'], ['H','O','W'], ['I'], ['I','F'],
   ['I','N'], ['I','N','T','O'], ['I','T'], ['I','T','S'], ['J','U','S','T'],
   ['K','N','O','W'], ['L','A','T','E'], ['L','I','K','E'], ['L','O','N','G'],
   ['L','O','O','K'], ['M','A','K','E'], ['M','A','N','Y'], ['M','E'],
   ['M','O','S','T'], ['M','Y'], ['N','E','W'], ['N','O'], ['N','O','T'],
   ['N','O','W'], ['N','U','M','B','E','R'], ['O','F'], ['O','N'],
   ['O','N','L','Y'], ['O','N','E'], ['O','R'], ['O','T','H','E','R'],
   ['O','U','R'], ['O','U','T'], ['P','E','O','P','L','E'], ['P','A','R','T'],
   ['S','A','I','D'], ['S','A','Y'], ['S','E','E'], ['S','H','E'],
   ['S','I','N','C','E'], ['T','A','K','E'], ['T','H','E'],
   ['T','H','E','I','R'], ['T','H','E','M'], ['T','H','E','N'],
   ['T','H','E','R','E'], ['T','H','E','Y'], ['T','H','I','S'],
   ['T','H','I','N','K'], ['T','I','M','E'], ['T','O'], ['T','W','O'],
   ['U','P'], ['U','S','E'], ['W','A','N','T'], ['W','A','Y'],
   ['W','E','L','L'], ['W','H','A','T'], ['W','H','E','N'],
   ['W','H','E','R','E'], ['W','H','I','C','H'], ['W','H','O'],
   ['W','I','L','L'], ['W','I','T','H'], ['W','O','R','K'],
   ['W','O','U','L','D'], ['Y','E','A','R'], ['Y','O','U'],
   ['Y','O','U','R']]

/-- `calculate_english_score` of `decrypt.py`. -/
def calculate_english_score : List Char → ℚ := english_score_with common_words

end Mono

namespace MonoImproved

/-- `self.common_words` of `decrypt_improved.py`: the `decrypt.py` list plus
seven long context words. -/
def common_words : List (List Char) :=
  Mono.common_words ++
  [['R','E','C','E','N','T'], ['I','M','P','O','R','T','A','N','T'],
   ['L','E','T','T','E','R','S'], ['T','O','M','O','R','R','O','W'],
   ['T','O','D','A','Y'], ['B','E','G','I','N','N','I','N','G'],
   ['N','E','C','E','S','S','A','R','Y']]

/-- `calculate_english_score` of `decrypt_improved.py`. -/
def calculate_english_score : List Char → ℚ := english_score_with MonoImproved.common_words

end MonoImproved

/-- A substitution key: a Python dict cipher-letter → plain-letter, i.e. an
association list in insertion order with pairwise-distinct keys. -/
abbrev Key := List (Char × Char)

/-- `list(key.keys())` in insertion order. -/
def keyLetters (k : Key) : List Char := k.map Prod.fst

/-- `new_key[letter1], new_key[letter2] = new_key[letter2], new_key[letter1]`:
exchange the values mapped to `a` and `b` (both present in every reachable
use; if either is absent the key is returned unchanged). -/
def swap_vals (k : Key) (a b : Char) : Key :=
  match k.lookup a, k.lookup b with
  | some va, some vb =>
      k.map (fun e => if e.1 = a then (e.1, vb) else if e.1 = b then (e.1, va) else e)
  | _, _ => k

/-- `apply_substitution_key` (identical in both monoalphabetic classes):
substitute through the key, preserving case, leaving unmapped characters. -/
def apply_substitution_key (text : List Char) (key : Key) : List Char :=
  text.map (fun c =>
    match key.lookup (upperChar c) with
    | some v => if c ∈ azLower then lowerChar v else v
    | none => c)

/-- `analyze_frequency`: percentage frequency of each letter of the cleaned
text, most common first (`sorted(..., reverse=True)` is stable, ties keep
first-occurrence order). -/
def analyze_frequency (text : List Char) : List (Char × ℚ) :=
  let ct := clean_text text
  if ct.length = 0 then []
  else
    List.insertionSort (fun a b : Char × ℚ => b.2 ≤ a.2)
      ((firstDedup ct).map (fun c => (c, ((ct.count c : ℚ) / (ct.length : ℚ)) * 100)))

/-- `create_frequency_key` of `decrypt_improved.py` (`dict` is
`self.dictionary`, by default `azUpper`): pair cipher letters in frequency
order with `freq_order` (the `i < len(freq_order)` guard is the truncation of
`zip`), then pair the unused cipher letters with the unused plain letters. -/
def create_frequency_key (dict : List Char) (ciphertext : List Char) : Key :=
  let cipher_order := (analyze_frequency ciphertext).map Prod.fst
  let initial_key : Key := cipher_order.zip freq_order
  let used_letters := initial_key.map Prod.snd
  let remaining_plain := dict.filter (fun l => decide (l ∉ used_letters))
  let remaining_cipher := dict.filter (fun l => decide (l ∉ keyLetters initial_key))
  initial_key ++ remaining_cipher.zip remaining_plain

/-- The stable descending-by-score order used by every
`sort(key=lambda x: x[..], reverse=True)` of the sources. -/
def score_desc {α : Type} (f : α → ℚ) (x y : α) : Prop := f y ≤ f x

instance score_desc_decidable {α : Type} (f : α → ℚ) : DecidableRel (score_desc f) :=
  fun x y => inferInstanceAs (Decidable (f y ≤ f x))

instance score_desc_total {α : Type} (f : α → ℚ) : IsTotal α (score_desc f) :=
  ⟨fun a b => le_total (f b) (f a)⟩

instance score_desc_trans {α : Type} (f : α → ℚ) : IsTrans α (score_desc f) :=
  ⟨fun _ _ _ h1 h2 => le_trans h2 h1⟩

/-- Line 264 of `decrypt_improved.py`:
`temperature = initial_temp * (1 - iteration / max_iterations)`. -/
def saTemperature (initial_temp : ℚ) (max_iterations t : ℕ) : ℚ :=
  initial_temp * (1 - (t : ℚ) / (max_iterations : ℚ))

/-- Loop state of `simulated_annealing`. `trace` is a ghost field recording
the score of each accepted move, in order; it influences nothing. `done`
records that the `len(key_letters) < 2` break fired. -/
structure SAState where
  currentKey : Key
  currentScore : ℚ
  bestKey : Key
  bestScore : ℚ
  improvements : ℕ
  accepted : ℕ
  trace : List ℚ
  done : Bool
deriving DecidableEq

/-- The `if accept:` block of `simulated_annealing`: move the walk, count the
acceptance, and track the best solution found. -/
def sa_accept (st : SAState) (new_key : Key) (new_score : ℚ) : SAState :=
  let st1 := { st with currentKey := new_key, currentScore := new_score,
                       accepted := st.accepted + 1, trace := st.trace ++ [new_score] }
  if new_score > st.bestScore then { st1 with bestKey := new_key, bestScore := new_score }
  else st1

open Classical in
/-- One iteration of the `for iteration in range(max_iterations)` loop of
`simulated_annealing`. `swaps t` is the pair drawn by `random.sample`,
`unif t` the value `random.random()` would return at iteration `t`. -/
noncomputable def sa_step (f : List Char → ℚ) (ciphertext : List Char)
    (max_iterations : ℕ) (initial_temp : ℚ) (swaps : ℕ → ℕ × ℕ) (unif : ℕ → ℝ)
    (t : ℕ) (st : SAState) : SAState :=
  if st.done then st else
  let temperature := saTemperature initial_temp max_iterations t
  let key_letters := keyLetters st.currentKey
  if key_letters.length < 2 then { st with done := true } else
  let letter1 := key_letters.getD (swaps t).1 'A'
  let letter2 := key_letters.getD (swaps t).2 'A'
  let new_key := swap_vals st.currentKey letter1 letter2
  let new_score := f (apply_substitution_key ciphertext new_key)
  if new_score > st.currentScore then
    sa_accept { st with improvements := st.improvements + 1 } new_key new_score
  else if 0 < temperature then
    if (unif t) < Real.exp (((new_score - st.currentScore) / temperature : ℚ) : ℝ) then
      sa_accept st new_key new_score
    else st
  else st

/-- Run `fuel` iterations of `sa_step` starting at iteration index `t`. -/
noncomputable def sa_go (f : List Char → ℚ) (ciphertext : List Char)
    (max_iterations : ℕ) (initial_temp : ℚ) (swaps : ℕ → ℕ × ℕ) (unif : ℕ → ℝ) :
    ℕ → ℕ → SAState → SAState
  | _, 0, st => st
  | t, fuel + 1, st =>
      sa_go f ciphertext max_iterations initial_temp swaps unif (t + 1) fuel
        (sa_step f ciphertext max_iterations initial_temp swaps unif t st)

/-- State before the loop of `simulated_annealing`. -/
def sa_init (f : List Char → ℚ) (ciphertext : List Char) (initial_key : Key) : SAState :=
  let s0 := f (apply_substitution_key ciphertext initial_key)
  ⟨initial_key, s0, initial_key, s0, 0, 0, [], false⟩

/-- The state of `simulated_annealing` after its first `i` iterations. -/
noncomputable def sa_after (f : List Char → ℚ) (ciphertext : List Char) (initial_key : Key)
    (max_iterations : ℕ) (initial_temp : ℚ) (swaps : ℕ → ℕ × ℕ) (unif : ℕ → ℝ)
    (i : ℕ) : SAState :=
  sa_go f ciphertext max_iterations initial_temp swaps unif 0 i
    (sa_init f ciphertext initial_key)

/-- `simulated_annealing` of `decrypt_improved.py`, as a function of the
scoring function `f`. The source returns
`(best_key, best_score, improvements, accepted_moves)`; here the final state
is returned and those four are its fields. -/
noncomputable def simulated_annealing_gen (f : List Char → ℚ) (ciphertext : List Char)
    (initial_key : Key) (max_iterations : ℕ) (initial_temp : ℚ)
    (swaps : ℕ → ℕ × ℕ) (unif : ℕ → ℝ) : SAState :=
  sa_after f ciphertext initial_key max_iterations initial_temp swaps unif max_iterations

/-- `simulated_annealing` of `decrypt_improved.py` (its class scorer). -/
noncomputable def simulated_annealing (ciphertext : List Char) (initial_key : Key)
    (max_iterations : ℕ) (initial_temp : ℚ) (swaps : ℕ → ℕ × ℕ) (unif : ℕ → ℝ) : SAState :=
  simulated_annealing_gen MonoImproved.calculate_english_score ciphertext initial_key
    max_iterations initial_temp swaps unif

/-- Loop state of `hill_climb_key` of `decrypt.py`. `noImp` is
`no_improvement_count`; `done` records that one of the two `break`s fired. -/
structure HillState where
  currentKey : Key
  currentScore : ℚ
  improvements : ℕ
  noImp : ℕ
  done : Bool
deriving DecidableEq

/-- One iteration of the loop of `hill_climb_key`: accept only strict
improvements, and break once 201 consecutive proposals fail to improve
(`if no_improvement_count > 200: break`). -/
def hill_step (f : List Char → ℚ) (ciphertext : List Char) (swaps : ℕ → ℕ × ℕ)
    (t : ℕ) (st : HillState) : HillState :=
  if st.done then st else
  let key_letters := keyLetters st.currentKey
  if key_letters.length < 2 then { st with done := true } else
  let letter1 := key_letters.getD (swaps t).1 'A'
  let letter2 := key_letters.getD (swaps t).2 'A'
  let new_key := swap_vals st.currentKey letter1 letter2
  let new_score := f (apply_substitution_key ciphertext new_key)
  let st1 :=
    if new_score > st.currentScore then
      { st with currentKey := new_key, currentScore := new_score,
                improvements := st.improvements + 1, noImp := 0 }
    else { st with noImp := st.noImp + 1 }
  if st1.noImp > 200 then { st1 with done := true } else st1

/-- Run `fuel` iterations of `hill_step` starting at iteration index `t`. -/
def hill_go (f : List Char → ℚ) (ciphertext : List Char) (swaps : ℕ → ℕ × ℕ) :
    ℕ → ℕ → HillState → HillState
  | _, 0, st => st
  | t, fuel + 1, st =>
      hill_go f ciphertext swaps (t + 1) fuel (hill_step f ciphertext swaps t st)

/-- State before the loop of `hill_climb_key`. -/
def hill_init (f : List Char → ℚ) (ciphertext : List Char) (initial_key : Key) : HillState :=
  ⟨initial_key, f (apply_substitution_key ciphertext initial_key), 0, 0, false⟩

/-- The state of `hill_climb_key` after its first `i` iterations, as a
function of the scoring function `f`. -/
def hill_after (f : List Char → ℚ) (ciphertext : List Char) (initial_key : Key)
    (swaps : ℕ → ℕ × ℕ) (i : ℕ) : HillState :=
  hill_go f ciphertext swaps 0 i (hill_init f ciphertext initial_key)

/-- `hill_climb_key` of `decrypt.py` (its class scorer). The source returns
`(current_key, current_score, improvements)`; here the final state is
returned and those three are its fields. -/
def hill_climb_key (ciphertext : List Char) (initial_key : Key) (max_iterations : ℕ)
    (swaps : ℕ → ℕ × ℕ) : HillState :=
  hill_after Mono.calculate_english_score ciphertext initial_key swaps max_iterations

/-- `tournament_selection`: `max(random.sample(population, min(k, len)), key=score)`.
`idxs` are the indices drawn by `random.sample`; Python's `max` keeps the
first of equally-fit candidates, hence the strict `>` in the fold. -/
def tournament_selection (population : List (Key × ℚ)) (idxs : List ℕ)
    (tournament_size : ℕ) : Key × ℚ :=
  let sample := (idxs.take (min tournament_size population.length)).map
    (fun i => population.getD i ([], 0))
  sample.foldl (fun acc x => if x.2 > acc.2 then x else acc) sample.headI

/-- The `for cipher_letter in parent1.keys()` loop of `crossover`: `coins i`
true chooses parent 1's mapping for the `i`-th cipher letter, false parent
2's; a choice whose plain letter is already used is skipped. Returns the
partial child and the `all_plain_used` list. -/
def crossover_go (parent2 : Key) (coins : ℕ → Bool) :
    ℕ → List (Char × Char) → Key → List Char → Key × List Char
  | _, [], child, used => (child, used)
  | i, e :: rest, child, used =>
      let plain := if coins i then e.2 else ((parent2.lookup e.1).getD 'A')
      if plain ∈ used then crossover_go parent2 coins (i + 1) rest child used
      else crossover_go parent2 coins (i + 1) rest (child ++ [(e.1, plain)]) (used ++ [plain])

/-- `crossover` of `decrypt_improved.py` (`dict` is `self.dictionary`):
per-letter random parent choice skipping duplicates, then the unmapped cipher
letters are paired in order with the unused dictionary letters. -/
def crossover (dict : List Char) (coins : ℕ → Bool) (parent1 parent2 : Key) : Key :=
  let cg := crossover_go parent2 coins 0 parent1 [] []
  let remaining_cipher := (keyLetters parent1).filter (fun c => decide (c ∉ keyLetters cg.1))
  let remaining_plain := dict.filter (fun p => decide (p ∉ cg.2))
  cg.1 ++ remaining_cipher.zip remaining_plain

/-- `mutate` of `decrypt_improved.py`: swap the values at two drawn positions
of the key (no-op on keys with fewer than two letters). -/
def mutate (key : Key) (draw : ℕ × ℕ) : Key :=
  let letters := keyLetters key
  if 2 ≤ letters.length then
    swap_vals key (letters.getD draw.1 'A') (letters.getD draw.2 'A')
  else key

/-- The random draws consumed by one `genetic_algorithm` run. `shuffle i` is
the shuffled dictionary prefix for initial individual `i`; the remaining
fields are indexed by (generation, child index within the generation). -/
structure GADraws where
  shuffle : ℕ → List Char
  tournA : ℕ → ℕ → List ℕ
  tournB : ℕ → ℕ → List ℕ
  coins : ℕ → ℕ → ℕ → Bool
  mutTrig : ℕ → ℕ → ℚ
  mutSwap : ℕ → ℕ → ℕ × ℕ

/-- State across generations of `genetic_algorithm`. `best_score` starts at
`-float('inf')`, modelled as `⊥ : WithBot ℚ`; `best_key` starts as the
absent value. -/
structure GAState where
  population : List (Key × ℚ)
  bestKey : Option Key
  bestScore : WithBot ℚ
deriving DecidableEq

/-- Creation of one offspring inside the `while len(new_population) <
population_size` loop: tournament-select two parents from the sorted
population, crossover, mutate with probability 0.1, and score. -/
def ga_child (dict ciphertext : List Char) (draws : GADraws) (g j : ℕ)
    (population : List (Key × ℚ)) : Key × ℚ :=
  let parent1 := tournament_selection population (draws.tournA g j) 3
  let parent2 := tournament_selection population (draws.tournB g j) 3
  let child0 := crossover dict (draws.coins g j) parent1.1 parent2.1
  let child_key := if draws.mutTrig g j < 1/10 then mutate child0 (draws.mutSwap g j) else child0
  (child_key, MonoImproved.calculate_english_score (apply_substitution_key ciphertext child_key))

/-- One `for generation in range(generations)` iteration of
`genetic_algorithm`: sort by fitness, track the best-ever candidate, keep the
top 25% (`population_size // 4`) and refill with offspring. -/
def ga_generation (dict ciphertext : List Char) (draws : GADraws) (population_size g : ℕ)
    (st : GAState) : GAState :=
  let population := List.insertionSort (score_desc (fun x : Key × ℚ => x.2)) st.population
  let top := population.headI
  let best :=
    if (top.2 : WithBot ℚ) > st.bestScore then (some top.1, (top.2 : WithBot ℚ))
    else (st.bestKey, st.bestScore)
  let elite := population.take (population_size / 4)
  let offspring := (List.range (population_size - elite.length)).map
    (fun j => ga_child dict ciphertext draws g j population)
  { population := elite ++ offspring, bestKey := best.1, bestScore := best.2 }

/-- Initial population of `genetic_algorithm`: for each individual, the
distinct letters of the cleaned ciphertext (`list(set(...))`, modelled in
first-occurrence order) zipped with a shuffled prefix of the dictionary
(supplied by the `shuffle` oracle, which stands for the shuffled
`self.dictionary[:len(cipher_letters)]`), scored. -/
def ga_init (_dict ciphertext : List Char) (draws : GADraws) (population_size : ℕ) : GAState :=
  let population := (List.range population_size).map (fun i =>
    let cipher_letters := firstDedup (clean_text ciphertext)
    let key := cipher_letters.zip (draws.shuffle i)
    (key, MonoImproved.calculate_english_score (apply_substitution_key ciphertext key)))
  { population := population, bestKey := none, bestScore := ⊥ }

/-- The `GAState` after `g` generations of `genetic_algorithm`. -/
def ga_state_after (dict ciphertext : List Char) (draws : GADraws) (population_size : ℕ) :
    ℕ → GAState
  | 0 => ga_init dict ciphertext draws population_size
  | g + 1 => ga_generation dict ciphertext draws population_size g
      (ga_state_after dict ciphertext draws population_size g)

/-- `genetic_algorithm` of `decrypt_improved.py`: returns
`(best_key, best_score)` after the generation budget. -/
def genetic_algorithm (dict ciphertext : List Char) (draws : GADraws)
    (population_size generations : ℕ) : Option Key × WithBot ℚ :=
  let fin := ga_state_after dict ciphertext draws population_size generations
  (fin.bestKey, fin.bestScore)

namespace Ceaser

/-- `decrypt_with_offset` of `ceaser/decrypt.py` with the default
`wrap_separately=False`: `np.roll(dictionary, -offset)` places
`dictionary[(i + offset) % n]` at position `i`; each character found in the
dictionary (first position, as `np.where`) is replaced, others kept. -/
def decrypt_with_offset (dict : List Char) (encrypted_text : List Char) (offset : ℕ) :
    List Char :=
  let n := dict.length
  let cipher_dict := (List.range n).map (fun i => dict.getD ((i + offset) % n) 'A')
  encrypted_text.map (fun c =>
    if c ∈ dict then cipher_dict.getD (dict.indexOf c) c else c)

/-- `calculate_english_score` of `ceaser/decrypt.py`: letter-frequency term
only, and `0` (not `-1000`) on empty normalized text. -/
def calculate_english_score (text : List Char) : ℚ :=
  let clean := clean_text text
  if clean.length = 0 then 0 else -freq_penalty clean

/-- `brute_force_decrypt` of `ceaser/decrypt.py`: score the decryption at
every offset `0 ≤ o < max_offset` (the default `max_offset` is
`len(self.dictionary)`), then stable-sort descending by score. -/
def brute_force_decrypt (dict : List Char) (encrypted_text : List Char)
    (max_offset : ℕ) : List (ℕ × List Char × ℚ) :=
  List.insertionSort (score_desc (fun r : ℕ × List Char × ℚ => r.2.2))
    ((List.range max_offset).map (fun o =>
      let decrypted := decrypt_with_offset dict encrypted_text o
      (o, decrypted, calculate_english_score decrypted)))

end Ceaser

namespace MonoImproved

/-- The random draws consumed by one `brute_force_decrypt` run of
`decrypt_improved.py`: per attempt, the swap-pair and uniform draws of its
simulated-annealing runs, the shuffles of its random starts, and the draws of
its genetic-algorithm runs. -/
structure BFDraws where
  sa2swap : ℕ → ℕ × ℕ
  sa2unif : ℕ → ℝ
  shuffle3 : List Char
  sa3swap : ℕ → ℕ × ℕ
  sa3unif : ℕ → ℝ
  sa4swap : ℕ → ℕ × ℕ
  sa4unif : ℕ → ℝ
  ga5 : GADraws
  sa6swap : ℕ → ℕ → ℕ × ℕ
  sa6unif : ℕ → ℕ → ℝ
  ga7 : GADraws
  sa7swap : ℕ → ℕ × ℕ
  sa7unif : ℕ → ℝ
  ga8 : GADraws

/-- The key produced by attempt number `a` (0-based) of `brute_force_decrypt`
of `decrypt_improved.py`: frequency analysis; frequency + SA (3000, 50);
random start + SA (5000, 100); frequency + SA (4000, 200); GA (30, 50);
best of three SA runs (150/3000, 75/4000, 300/2000); GA (20, 30) refined by
SA (2000, 50); and GA (40, 100) for every larger attempt number. -/
noncomputable def attempt_key (dict : List Char) (draws : BFDraws)
    (encrypted_text : List Char) : ℕ → Key
  | 0 => create_frequency_key dict encrypted_text
  | 1 => (simulated_annealing encrypted_text (create_frequency_key dict encrypted_text)
            3000 50 draws.sa2swap draws.sa2unif).bestKey
  | 2 => (simulated_annealing encrypted_text
            ((firstDedup (clean_text encrypted_text)).zip draws.shuffle3)
            5000 100 draws.sa3swap draws.sa3unif).bestKey
  | 3 => (simulated_annealing encrypted_text (create_frequency_key dict encrypted_text)
            4000 200 draws.sa4swap draws.sa4unif).bestKey
  | 4 => (genetic_algorithm dict encrypted_text draws.ga5 30 50).1.getD []
  | 5 =>
      let run := fun (i iters : ℕ) (temp : ℚ) =>
        simulated_annealing encrypted_text (create_frequency_key dict encrypted_text)
          iters temp (draws.sa6swap i) (draws.sa6unif i)
      let runs := [run 0 3000 150, run 1 4000 75, run 2 2000 300]
      (runs.foldl (fun acc r =>
        if (r.bestScore : WithBot ℚ) > acc.2 then (some r.bestKey, (r.bestScore : WithBot ℚ))
        else acc) ((none : Option Key), (⊥ : WithBot ℚ))).1.getD []
  | 6 =>
      let ga_key := (genetic_algorithm dict encrypted_text draws.ga7 20 30).1.getD []
      (simulated_annealing encrypted_text ga_key 2000 50 draws.sa7swap draws.sa7unif).bestKey
  | _ + 7 => (genetic_algorithm dict encrypted_text draws.ga8 40 100).1.getD []

/-- `brute_force_decrypt` of `decrypt_improved.py`: run `num_attempts`
attempts, apply each attempt's key, score the decryption, and stable-sort the
`(key, decrypted, score)` results descending by score. (None of the attempt
bodies can raise, so the `try`/`except` of the source never skips one.) -/
noncomputable def brute_force_decrypt (dict : List Char) (draws : BFDraws)
    (encrypted_text : List Char) (num_attempts : ℕ) : List (Key × List Char × ℚ) :=
  List.insertionSort (score_desc (fun r : Key × List Char × ℚ => r.2.2))
    ((List.range num_attempts).map (fun a =>
      let key := attempt_key dict draws encrypted_text a
      let decrypted := apply_substitution_key encrypted_text key
      (key, decrypted, MonoImproved.calculate_english_score decrypted)))

/-- `auto_decrypt` of `decrypt_improved.py`: run `brute_force_decrypt` with 8
attempts and return the decrypted text of the top candidate (or the input
itself when there are no results). -/
noncomputable def auto_decrypt (dict : List Char) (draws : BFDraws)
    (encrypted_text : List Char) : List Char :=
  match brute_force_decrypt dict draws encrypted_text 8 with
  | [] => encrypted_text
  | r :: _ => r.2.1

end MonoImproved

/-- Fixture ciphertext for the SA/hill-climbing divergence run: the single
letter `A`. -/
def divCiphertext : List Char := ['A']

/-- Fixture initial key for the divergence run. -/
def divKey : Key := [('A', 'T'), ('X', 'E'), ('Y', 'Z')]

/-- Fixture proposal sequence: 201 swaps of the two letters absent from the
ciphertext (score-neutral, hence always rejected), then one swap that
improves the score. -/
def divSwaps : ℕ → ℕ × ℕ := fun t => if t < 201 then (1, 2) else (0, 1)

/-- Score of the divergence run's starting point: both scorers on the text
`T` give `-(100 - 9.1)^2 - 5`. -/
def divScore : ℚ := -826781 / 100

/-- Score of the improving move of the divergence run: the improved scorer
on the text `E` gives `-(100 - 12.7)^2 - 5`. -/
def divScore2 : ℚ := -762629 / 100

/-! ## Theorems -/

/-- Cast arithmetic for the last executed iteration of the cooling
schedule. -/
theorem saTemperature_last (initial_temp : ℚ) (m : ℕ) (hm : 1 ≤ m) :
    saTemperature initial_temp m (m - 1) = initial_temp / m := by
  have hm0 : (m : ℚ) ≠ 0 := by
    have : 0 < m := hm
    exact_mod_cast this.ne'
  have hcast : ((m - 1 : ℕ) : ℚ) = (m : ℚ) - 1 := by
    push_cast [Nat.cast_sub hm]
    ring
  rw [saTemperature, hcast]
  field_simp

/-- C2 (amended): at every executed iteration `t < max_iterations` the
temperature is `initial_temp * (1 - t / max_iterations)`, but the schedule
does not reach 0 during the run: at the final executed step
`t = max_iterations - 1` it equals `initial_temp / max_iterations`, which is
nonzero whenever `initial_temp > 0`. -/
theorem sa_temperature_schedule (initial_temp : ℚ) (m t : ℕ) (hm : 1 ≤ m) (_ht : t < m) :
    saTemperature initial_temp m t = initial_temp * (1 - (t : ℚ) / (m : ℚ)) ∧
    saTemperature initial_temp m (m - 1) = initial_temp / m ∧
    (0 < initial_temp → saTemperature initial_temp m (m - 1) ≠ 0) := by
  refine ⟨rfl, saTemperature_last initial_temp m hm, ?_⟩
  intro hT
  rw [saTemperature_last initial_temp m hm]
  have hm0 : (m : ℚ) ≠ 0 := by
    have : 0 < m := hm
    exact_mod_cast this.ne'
  exact div_ne_zero (ne_of_gt hT) hm0

/-- Witness for `sa_temperature_schedule` at the default SA parameters. -/
theorem sa_temperature_schedule_witness :
    (1 ≤ 5000 ∧ 0 < 5000) ∧
    (saTemperature 100 5000 0 = 100 * (1 - (0 : ℚ) / 5000) ∧
     saTemperature 100 5000 (5000 - 1) = 100 / 5000 ∧
     (0 < (100 : ℚ) → saTemperature 100 5000 (5000 - 1) ≠ 0)) :=
  ⟨by decide, sa_temperature_schedule 100 5000 0 (by decide) (by decide)⟩

/-- C2 counterexample: at the final executed step of the default run
(`initial_temp = 100`, `max_iterations = 5000`, iteration 4999) the
temperature is `1/50`, not 0 — the schedule does not reach 0 at the final
step. -/
theorem sa_temperature_final_step_not_zero : saTemperature 100 5000 4999 ≠ 0 := by
  norm_num [saTemperature]

/-- C7 (amended): the Caesar brute-force search has no size ceiling and no
`DomainSizeError` — for every dictionary, ciphertext and `max_offset` it
enumerates and returns exactly `max_offset` scored candidates. -/
theorem caesar_brute_force_never_rejects (dict enc : List Char) (max_offset : ℕ) :
    (Ceaser.brute_force_decrypt dict enc max_offset).length = max_offset := by
  simp [Ceaser.brute_force_decrypt, List.length_insertionSort]

/-- C7 counterexample: with a declared key space of `2^20 + 1 > 2^20` offsets
the search still enumerates all of them (returning `2^20 + 1` candidates)
instead of raising `DomainSizeError`, which the code does not define. -/
theorem caesar_brute_force_oversized_enumerates :
    2 ^ 20 < 2 ^ 20 + 1 ∧
    (Ceaser.brute_force_decrypt azUpper ['K'] (2 ^ 20 + 1)).length = 2 ^ 20 + 1 := by
  refine ⟨Nat.lt_succ_self _, ?_⟩
  simp only [Ceaser.brute_force_decrypt, List.length_insertionSort, List.length_map,
    List.length_range]

/-- C9 (amended): both monoalphabetic scorers return the sentinel `-1000`
when stripping non-letters leaves nothing, while the Caesar scorer returns
`0` on the same degenerate input; all are total functions. -/
theorem english_score_empty_sentinel (t : List Char) (h : clean_text t = []) :
    MonoImproved.calculate_english_score t = -1000 ∧
    Mono.calculate_english_score t = -1000 ∧
    Ceaser.calculate_english_score t = 0 := by
  refine ⟨?_, ?_, ?_⟩ <;>
    simp [MonoImproved.calculate_english_score, Mono.calculate_english_score,
      Ceaser.calculate_english_score, english_score_with, h]

/-- Witness for `english_score_empty_sentinel` on a letterless input. -/
theorem english_score_empty_sentinel_witness :
    clean_text ['1', '!'] = [] ∧
    (MonoImproved.calculate_english_score ['1', '!'] = -1000 ∧
     Mono.calculate_english_score ['1', '!'] = -1000 ∧
     Ceaser.calculate_english_score ['1', '!'] = 0) :=
  ⟨by decide, english_score_empty_sentinel ['1', '!'] (by decide)⟩

/-- C9 counterexample: the Caesar class's `calculate_english_score` applied
to the empty string (whose normalization is empty) returns `0`, not the
sentinel `-1000` claimed for the scoring function. -/
theorem ceaser_score_empty_not_sentinel :
    clean_text [] = [] ∧ Ceaser.calculate_english_score [] ≠ -1000 := by
  constructor
  · rfl
  · decide

/-- The Python substring test succeeds exactly when the word occurs at least
once. -/
theorem contains_sub_iff_occ (w t : List Char) :
    contains_sub t w = true ↔ 1 ≤ occ_count w t := by
  unfold contains_sub occ_count
  rw [List.any_eq_true]
  constructor
  · rintro ⟨s, hs, hp⟩
    have hmem : s ∈ t.tails.filter (fun s => w.isPrefixOf s) :=
      List.mem_filter.mpr ⟨hs, hp⟩
    have := List.length_pos.mpr (List.ne_nil_of_mem hmem)
    omega
  · intro h
    have hne : t.tails.filter (fun s => w.isPrefixOf s) ≠ [] := by
      intro hnil
      rw [hnil] at h
      simp at h
    obtain ⟨s, hs⟩ := List.exists_mem_of_ne_nil _ hne
    exact ⟨s, (List.mem_filter.mp hs).1, (List.mem_filter.mp hs).2⟩

/-- C10: in the improved scorer the word bonus is `10 * len(word)` exactly
once for every listed common word occurring as a substring of the normalized
text, independently of how many times it occurs: the bonus is determined by
which listed words occur at least once, and it enters
`calculate_english_score` additively. -/
theorem word_bonus_once_per_word :
    (∀ t, word_bonus MonoImproved.common_words t =
      (MonoImproved.common_words.map
        (fun w => if 1 ≤ occ_count w t then (w.length : ℚ) * 10 else 0)).sum) ∧
    (∀ t₁ t₂, (∀ w ∈ MonoImproved.common_words,
        (1 ≤ occ_count w t₁ ↔ 1 ≤ occ_count w t₂)) →
      word_bonus MonoImproved.common_words t₁ = word_bonus MonoImproved.common_words t₂) ∧
    (∀ t, clean_text t ≠ [] →
      MonoImproved.calculate_english_score t =
        -freq_penalty (clean_text t) + word_bonus MonoImproved.common_words (clean_text t) +
          bigram_bonus (clean_text t) + trigram_bonus (clean_text t) +
          (double_letter_bonus (clean_text t) + vowel_bonus (clean_text t))) := by
  refine ⟨?_, ?_, ?_⟩
  · intro t
    simp only [word_bonus, contains_sub_iff_occ]
  · intro t₁ t₂ h
    simp only [word_bonus, contains_sub_iff_occ]
    congr 1
    apply List.map_congr_left
    intro w hw
    exact if_congr (h w hw) rfl rfl
  · intro t ht
    have : (clean_text t).length ≠ 0 := fun h0 => ht (List.length_eq_zero.mp h0)
    simp only [MonoImproved.calculate_english_score, english_score_with, if_neg this]

/-- Witness for `word_bonus_once_per_word`: `THETHE` contains `THE` twice but
earns the same word bonus as `THE`, which contains it once. -/
theorem word_bonus_once_per_word_witness :
    (∀ w ∈ MonoImproved.common_words,
      (1 ≤ occ_count w ['T','H','E','T','H','E'] ↔ 1 ≤ occ_count w ['T','H','E'])) ∧
    word_bonus MonoImproved.common_words ['T','H','E','T','H','E'] =
      word_bonus MonoImproved.common_words ['T','H','E'] :=
  ⟨by decide, word_bonus_once_per_word.2.1 _ _ (by decide)⟩

/-- C5: the best-ever score tracked by `genetic_algorithm` never decreases
from one generation to the next, for every ciphertext, population size (at
least 1, as in every call of the source) and draw sequence. -/
theorem ga_best_score_monotone (dict ciphertext : List Char) (draws : GADraws)
    (population_size g : ℕ) (_hP : 1 ≤ population_size) :
    (ga_state_after dict ciphertext draws population_size g).bestScore ≤
    (ga_state_after dict ciphertext draws population_size (g + 1)).bestScore := by
  show _ ≤ (ga_generation dict ciphertext draws population_size g
    (ga_state_after dict ciphertext draws population_size g)).bestScore
  set st := ga_state_after dict ciphertext draws population_size g
  unfold ga_generation
  by_cases h : ((List.insertionSort (score_desc (fun x : Key × ℚ => x.2))
      st.population).headI.2 : WithBot ℚ) > st.bestScore
  · simp only [if_pos h]
    exact le_of_lt h
  · simp only [if_neg h]
    exact le_refl _

/-- The constant draw oracle for a genetic-algorithm run. -/
def trivialGADraws : GADraws :=
  ⟨fun _ => [], fun _ _ => [], fun _ _ => [], fun _ _ _ => true, fun _ _ => 0,
   fun _ _ => (0, 0)⟩

/-- Witness for `ga_best_score_monotone` on a concrete run. -/
theorem ga_best_score_monotone_witness :
    1 ≤ 2 ∧
    (ga_state_after azUpper ['H', 'I'] trivialGADraws 2 0).bestScore ≤
      (ga_state_after azUpper ['H', 'I'] trivialGADraws 2 1).bestScore :=
  ⟨by decide, ga_best_score_monotone azUpper ['H', 'I'] trivialGADraws 2 0 (by decide)⟩

/-- A left fold by `max` never goes below its starting value. -/
theorem le_foldl_max : ∀ (l : List ℚ) (a : ℚ), a ≤ l.foldl max a
  | [], _ => le_refl _
  | x :: xs, a => le_trans (le_max_left a x) (le_foldl_max xs (max a x))

/-- `sa_accept` keeps the best-ever bookkeeping of `simulated_annealing`
exact: the best score stays the running maximum of the start score and all
accepted scores, dominates the current score, and is the score of the best
key. -/
theorem sa_accept_inv (f : List Char → ℚ) (ct : List Char) (s0 : ℚ) (st : SAState)
    (nk : Key) (ns : ℚ)
    (h1 : st.bestScore = st.trace.foldl max s0)
    (h3 : f (apply_substitution_key ct st.bestKey) = st.bestScore)
    (hns : ns = f (apply_substitution_key ct nk)) :
    (sa_accept st nk ns).bestScore = (sa_accept st nk ns).trace.foldl max s0 ∧
    (sa_accept st nk ns).currentScore ≤ (sa_accept st nk ns).bestScore ∧
    f (apply_substitution_key ct (sa_accept st nk ns).bestKey) =
      (sa_accept st nk ns).bestScore := by
  unfold sa_accept
  by_cases h : ns > st.bestScore
  · simp only [if_pos h]
    refine ⟨?_, le_refl _, hns.symm⟩
    simp only [List.foldl_append, List.foldl_cons, List.foldl_nil, ← h1]
    exact (max_eq_right (le_of_lt h)).symm
  · simp only [if_neg h]
    have hle : ns ≤ st.bestScore := not_lt.mp h
    refine ⟨?_, hle, h3⟩
    simp only [List.foldl_append, List.foldl_cons, List.foldl_nil, ← h1]
    exact (max_eq_left hle).symm

/-- One `sa_step` keeps the best-ever bookkeeping exact. -/
theorem sa_step_inv (f : List Char → ℚ) (ct : List Char) (m : ℕ) (T0 : ℚ)
    (swaps : ℕ → ℕ × ℕ) (unif : ℕ → ℝ) (t : ℕ) (s0 : ℚ) (st : SAState)
    (h1 : st.bestScore = st.trace.foldl max s0)
    (h2 : st.currentScore ≤ st.bestScore)
    (h3 : f (apply_substitution_key ct st.bestKey) = st.bestScore) :
    (sa_step f ct m T0 swaps unif t st).bestScore =
      (sa_step f ct m T0 swaps unif t st).trace.foldl max s0 ∧
    (sa_step f ct m T0 swaps unif t st).currentScore ≤
      (sa_step f ct m T0 swaps unif t st).bestScore ∧
    f (apply_substitution_key ct (sa_step f ct m T0 swaps unif t st).bestKey) =
      (sa_step f ct m T0 swaps unif t st).bestScore := by
  simp only [sa_step]
  by_cases hd : st.done = true
  · simp only [if_pos hd]
    exact ⟨h1, h2, h3⟩
  · simp only [if_neg hd]
    by_cases hlen : (keyLetters st.currentKey).length < 2
    · simp only [if_pos hlen]
      exact ⟨h1, h2, h3⟩
    · simp only [if_neg hlen]
      by_cases himp :
          f (apply_substitution_key ct (swap_vals st.currentKey
            ((keyLetters st.currentKey).getD (swaps t).1 'A')
            ((keyLetters st.currentKey).getD (swaps t).2 'A'))) > st.currentScore
      · simp only [if_pos himp]
        exact sa_accept_inv f ct s0 _ _ _ h1 h3 rfl
      · simp only [if_neg himp]
        by_cases htemp : (0 : ℚ) < saTemperature T0 m t
        · simp only [if_pos htemp]
          by_cases hu : (unif t : ℝ) <
              Real.exp (((f (apply_substitution_key ct (swap_vals st.currentKey
                ((keyLetters st.currentKey).getD (swaps t).1 'A')
                ((keyLetters st.currentKey).getD (swaps t).2 'A'))) -
                st.currentScore) / saTemperature T0 m t : ℚ) : ℝ)
          · simp only [if_pos hu]
            exact sa_accept_inv f ct s0 _ _ _ h1 h3 rfl
          · simp only [if_neg hu]
            exact ⟨h1, h2, h3⟩
        · simp only [if_neg htemp]
          exact ⟨h1, h2, h3⟩

/-- Any number of SA iterations keeps the best-ever bookkeeping exact. -/
theorem sa_go_inv (f : List Char → ℚ) (ct : List Char) (m : ℕ) (T0 : ℚ)
    (swaps : ℕ → ℕ × ℕ) (unif : ℕ → ℝ) (s0 : ℚ) :
    ∀ (fuel t : ℕ) (st : SAState),
      st.bestScore = st.trace.foldl max s0 →
      st.currentScore ≤ st.bestScore →
      f (apply_substitution_key ct st.bestKey) = st.bestScore →
      ((sa_go f ct m T0 swaps unif t fuel st).bestScore =
         (sa_go f ct m T0 swaps unif t fuel st).trace.foldl max s0 ∧
       (sa_go f ct m T0 swaps unif t fuel st).currentScore ≤
         (sa_go f ct m T0 swaps unif t fuel st).bestScore ∧
       f (apply_substitution_key ct (sa_go f ct m T0 swaps unif t fuel st).bestKey) =
         (sa_go f ct m T0 swaps unif t fuel st).bestScore)
  | 0, _, _, h1, h2, h3 => ⟨h1, h2, h3⟩
  | fuel + 1, t, st, h1, h2, h3 => by
      have hs := sa_step_inv f ct m T0 swaps unif t s0 st h1 h2 h3
      exact sa_go_inv f ct m T0 swaps unif s0 fuel (t + 1) _ hs.1 hs.2.1 hs.2.2

/-- C4: `simulated_annealing` returns the best pair ever seen: for every
ciphertext, initial key, budget, temperature and draw sequence, the returned
best score is the maximum of the initial score and the scores of all accepted
walk states (the ghost `trace`), so it dominates both the initial score and
the final current-walk score, and it is exactly the score of the returned
best key. -/
theorem sa_returns_best_ever (ciphertext : List Char) (initial_key : Key)
    (max_iterations : ℕ) (initial_temp : ℚ) (swaps : ℕ → ℕ × ℕ) (unif : ℕ → ℝ) :
    (simulated_annealing ciphertext initial_key max_iterations initial_temp swaps unif).bestScore =
      (simulated_annealing ciphertext initial_key max_iterations initial_temp swaps
        unif).trace.foldl max
        (MonoImproved.calculate_english_score (apply_substitution_key ciphertext initial_key)) ∧
    MonoImproved.calculate_english_score (apply_substitution_key ciphertext initial_key) ≤
      (simulated_annealing ciphertext initial_key max_iterations initial_temp swaps
        unif).bestScore ∧
    (simulated_annealing ciphertext initial_key max_iterations initial_temp swaps
        unif).currentScore ≤
      (simulated_annealing ciphertext initial_key max_iterations initial_temp swaps
        unif).bestScore ∧
    MonoImproved.calculate_english_score (apply_substitution_key ciphertext
        (simulated_annealing ciphertext initial_key max_iterations initial_temp swaps
          unif).bestKey) =
      (simulated_annealing ciphertext initial_key max_iterations initial_temp swaps
        unif).bestScore := by
  have h := sa_go_inv MonoImproved.calculate_english_score ciphertext max_iterations
    initial_temp swaps unif
    (MonoImproved.calculate_english_score (apply_substitution_key ciphertext initial_key))
    max_iterations 0
    (sa_init MonoImproved.calculate_english_score ciphertext initial_key)
    rfl (le_refl _) rfl
  simp only [simulated_annealing, simulated_annealing_gen, sa_after]
  refine ⟨h.1, ?_, h.2.1, h.2.2⟩
  rw [h.1]
  exact le_foldl_max _ _

/-- Applying any substitution key to the empty text gives the empty text. -/
theorem apply_substitution_key_nil (k : Key) : apply_substitution_key [] k = [] := rfl

/-- C8 (amended): on the empty ciphertext `auto_decrypt` returns normally —
no `ConfigurationError` exists in the code — with `brute_force_decrypt`
producing all 8 candidates (no attempt fails), and the returned top decryption
is the empty string, for every dictionary and draw sequence. -/
theorem auto_decrypt_empty_returns (dict : List Char) (draws : MonoImproved.BFDraws) :
    MonoImproved.auto_decrypt dict draws [] = [] ∧
    (MonoImproved.brute_force_decrypt dict draws [] 8).length = 8 := by
  have hlen : (MonoImproved.brute_force_decrypt dict draws [] 8).length = 8 := by
    simp only [MonoImproved.brute_force_decrypt, List.length_insertionSort, List.length_map,
      List.length_range]
  have hmem : ∀ r ∈ MonoImproved.brute_force_decrypt dict draws [] 8,
      r.2.1 = ([] : List Char) := by
    intro r hr
    have hr' := (List.perm_insertionSort _ _).subset hr
    obtain ⟨a, _, rfl⟩ := List.mem_map.mp hr'
    rfl
  refine ⟨?_, hlen⟩
  have hne : MonoImproved.brute_force_decrypt dict draws [] 8 ≠ [] := by
    intro hnil
    rw [hnil] at hlen
    simp at hlen
  obtain ⟨hd, tl, heq⟩ := List.exists_cons_of_ne_nil hne
  simp only [MonoImproved.auto_decrypt, heq]
  exact hmem hd (heq ▸ List.mem_cons_self hd tl)

/-- The constant draw oracle for a `brute_force_decrypt` run. -/
noncomputable def trivialBFDraws : MonoImproved.BFDraws :=
  ⟨fun _ => (0, 1), fun _ => 0, [], fun _ => (0, 1), fun _ => 0, fun _ => (0, 1), fun _ => 0,
   trivialGADraws, fun _ _ => (0, 1), fun _ _ => 0, trivialGADraws, fun _ => (0, 1), fun _ => 0,
   trivialGADraws⟩

/-- C8 counterexample: at the concrete input `auto_decrypt("")` with the
default dictionary, the call returns normally with the empty string and its
`brute_force_decrypt` returns a full list of 8 candidates — it does not raise
`ConfigurationError` (which the code never defines), and the top-N shown to
the caller is non-empty. -/
theorem auto_decrypt_empty_counterexample :
    MonoImproved.auto_decrypt azUpper trivialBFDraws [] = [] ∧
    (MonoImproved.brute_force_decrypt azUpper trivialBFDraws [] 8).length = 8 := by
  have hlen : (MonoImproved.brute_force_decrypt azUpper trivialBFDraws [] 8).length = 8 := by
    simp only [MonoImproved.brute_force_decrypt, List.length_insertionSort, List.length_map,
      List.length_range]
  have hmem : ∀ r ∈ MonoImproved.brute_force_decrypt azUpper trivialBFDraws [] 8,
      r.2.1 = ([] : List Char) := by
    intro r hr
    have hr' := (List.perm_insertionSort _ _).subset hr
    obtain ⟨a, _, rfl⟩ := List.mem_map.mp hr'
    rfl
  refine ⟨?_, hlen⟩
  have hne : MonoImproved.brute_force_decrypt azUpper trivialBFDraws [] 8 ≠ [] := by
    intro hnil
    rw [hnil] at hlen
    simp at hlen
  obtain ⟨hd, tl, heq⟩ := List.exists_cons_of_ne_nil hne
  simp only [MonoImproved.auto_decrypt, heq]
  exact hmem hd (heq ▸ List.mem_cons_self hd tl)

/-- C6: over a 26-letter dictionary with the default
`max_offset = len(dictionary)`, Caesar `brute_force_decrypt` returns exactly
26 candidates — one per offset 0..25, each carrying its decryption and that
decryption's score, none pruned — sorted descending by score, so the first
candidate's score attains the maximum over all offsets. -/
theorem caesar_exhaustive_complete (dict enc : List Char) (h26 : dict.length = 26) :
    (Ceaser.brute_force_decrypt dict enc dict.length).length = 26 ∧
    ((Ceaser.brute_force_decrypt dict enc dict.length).map Prod.fst).Perm (List.range 26) ∧
    (∀ r ∈ Ceaser.brute_force_decrypt dict enc dict.length,
       r.2.1 = Ceaser.decrypt_with_offset dict enc r.1 ∧
       r.2.2 = Ceaser.calculate_english_score (Ceaser.decrypt_with_offset dict enc r.1)) ∧
    List.Sorted (score_desc (fun r : ℕ × List Char × ℚ => r.2.2))
      (Ceaser.brute_force_decrypt dict enc dict.length) ∧
    (∀ o < 26, Ceaser.calculate_english_score (Ceaser.decrypt_with_offset dict enc o) ≤
       (Ceaser.brute_force_decrypt dict enc dict.length).headI.2.2) := by
  have hperm : (Ceaser.brute_force_decrypt dict enc dict.length).Perm
      ((List.range dict.length).map (fun o =>
        let decrypted := Ceaser.decrypt_with_offset dict enc o
        (o, decrypted, Ceaser.calculate_english_score decrypted))) :=
    List.perm_insertionSort _ _
  have hsorted : List.Sorted (score_desc (fun r : ℕ × List Char × ℚ => r.2.2))
      (Ceaser.brute_force_decrypt dict enc dict.length) :=
    List.sorted_insertionSort _ _
  have hmemform : ∀ r ∈ Ceaser.brute_force_decrypt dict enc dict.length,
      r.2.1 = Ceaser.decrypt_with_offset dict enc r.1 ∧
      r.2.2 = Ceaser.calculate_english_score (Ceaser.decrypt_with_offset dict enc r.1) := by
    intro r hr
    obtain ⟨o, _, rfl⟩ := List.mem_map.mp (hperm.subset hr)
    exact ⟨rfl, rfl⟩
  have hlen : (Ceaser.brute_force_decrypt dict enc dict.length).length = 26 := by
    rw [hperm.length_eq, List.length_map, List.length_range, h26]
  have hmax : ∀ r ∈ Ceaser.brute_force_decrypt dict enc dict.length,
      r.2.2 ≤ (Ceaser.brute_force_decrypt dict enc dict.length).headI.2.2 := by
    have hne : Ceaser.brute_force_decrypt dict enc dict.length ≠ [] := by
      intro hnil
      rw [hnil] at hlen
      simp at hlen
    obtain ⟨hd, tl, heq⟩ := List.exists_cons_of_ne_nil hne
    rw [heq] at hsorted ⊢
    intro r hr
    rcases List.mem_cons.mp hr with hr1 | hr2
    · rw [hr1]
      simp
    · simpa using List.rel_of_sorted_cons hsorted r hr2
  refine ⟨hlen, ?_, hmemform, hsorted, ?_⟩
  · have := hperm.map Prod.fst
    rw [List.map_map] at this
    have hcomp : (Prod.fst ∘ fun o =>
        let decrypted := Ceaser.decrypt_with_offset dict enc o
        ((o, decrypted, Ceaser.calculate_english_score decrypted) : ℕ × List Char × ℚ)) =
        id := by
      funext o
      rfl
    rw [hcomp, List.map_id] at this
    rw [← h26]
    exact this
  · intro o ho
    have hmem : (let decrypted := Ceaser.decrypt_with_offset dict enc o
        ((o, decrypted, Ceaser.calculate_english_score decrypted) : ℕ × List Char × ℚ)) ∈
        Ceaser.brute_force_decrypt dict enc dict.length := by
      apply hperm.mem_iff.mpr
      apply List.mem_map_of_mem
      rw [List.mem_range, h26]
      exact ho
    exact hmax _ hmem

/-- Witness for `caesar_exhaustive_complete` on the default 26-letter
dictionary and the fixture ciphertext `KHOOR`. -/
theorem caesar_exhaustive_complete_witness :
    azUpper.length = 26 ∧
    (Ceaser.brute_force_decrypt azUpper ['K', 'H', 'O', 'O', 'R'] azUpper.length).length = 26 :=
  ⟨by decide, (caesar_exhaustive_complete azUpper ['K', 'H', 'O', 'O', 'R'] (by decide)).1⟩

/-- Membership in `firstDedupGo`. -/
theorem firstDedupGo_mem : ∀ (l seen : List Char) (c : Char),
    c ∈ firstDedupGo seen l ↔ (c ∈ l ∧ c ∉ seen)
  | [], _, _ => by simp [firstDedupGo]
  | x :: l, seen, c => by
    by_cases hx : x ∈ seen
    · rw [firstDedupGo, if_pos hx, firstDedupGo_mem l seen c]
      constructor
      · rintro ⟨h1, h2⟩
        exact ⟨List.mem_cons_of_mem _ h1, h2⟩
      · rintro ⟨h1, h2⟩
        rcases List.mem_cons.mp h1 with rfl | h1'
        · exact absurd hx h2
        · exact ⟨h1', h2⟩
    · rw [firstDedupGo, if_neg hx]
      rw [List.mem_cons, firstDedupGo_mem l (x :: seen) c]
      constructor
      · rintro (rfl | ⟨h1, h2⟩)
        · exact ⟨List.mem_cons_self _ _, hx⟩
        · exact ⟨List.mem_cons_of_mem _ h1, fun hc => h2 (List.mem_cons_of_mem _ hc)⟩
      · rintro ⟨h1, h2⟩
        rcases List.mem_cons.mp h1 with rfl | h1'
        · exact Or.inl rfl
        · by_cases hcx : c = x
          · exact Or.inl hcx
          · exact Or.inr ⟨h1', fun hc => by
              rcases List.mem_cons.mp hc with h | h
              · exact hcx h
              · exact h2 h⟩

/-- `firstDedupGo` has no duplicates. -/
theorem firstDedupGo_nodup : ∀ (l seen : List Char), (firstDedupGo seen l).Nodup
  | [], _ => List.nodup_nil
  | x :: l, seen => by
    by_cases hx : x ∈ seen
    · rw [firstDedupGo, if_pos hx]
      exact firstDedupGo_nodup l seen
    · rw [firstDedupGo, if_neg hx]
      refine List.nodup_cons.mpr ⟨?_, firstDedupGo_nodup l (x :: seen)⟩
      intro hmem
      exact ((firstDedupGo_mem l (x :: seen) x).mp hmem).2 (List.mem_cons_self _ _)

/-- `firstDedup` keeps exactly the elements of its input. -/
theorem firstDedup_mem (l : List Char) (c : Char) : c ∈ firstDedup l ↔ c ∈ l := by
  rw [firstDedup, firstDedupGo_mem]
  simp

/-- `firstDedup` has no duplicates. -/
theorem firstDedup_nodup (l : List Char) : (firstDedup l).Nodup :=
  firstDedupGo_nodup l []

/-- A duplicate-free list included in another list is no longer than it. -/
theorem nodup_length_le (l m : List Char) (h : l.Nodup) (hs : l ⊆ m) :
    l.length ≤ m.length := by
  calc l.length = l.toFinset.card := (List.toFinset_card_of_nodup h).symm
    _ ≤ m.toFinset.card :=
        Finset.card_le_card (fun x hx => List.mem_toFinset.mpr (hs (List.mem_toFinset.mp hx)))
    _ ≤ m.length := List.toFinset_card_le m

/-- Second components of a zip, as a prefix of the second list. -/
theorem map_snd_zip_eq_take : ∀ {α β : Type} (a : List α) (b : List β),
    a.length ≤ b.length → (a.zip b).map Prod.snd = b.take a.length
  | _, _, [], _, _ => by simp
  | _, _, _ :: _, [], h => by simp at h
  | _, _, x :: xs, y :: ys, h => by
    simp only [List.zip_cons_cons, List.map_cons, List.length_cons, List.take_succ_cons]
    rw [map_snd_zip_eq_take xs ys (Nat.succ_le_succ_iff.mp h)]

/-- `lookup` misses keys that are not present. -/
theorem lookup_eq_none_of_not_mem {β : Type} :
    ∀ (l : List (Char × β)) (a : Char), a ∉ l.map Prod.fst → l.lookup a = none
  | [], _, _ => rfl
  | (k, v) :: l, a, h => by
    have hne : a ≠ k := fun he => h (by simp [he])
    have hb : (a == k) = false := beq_eq_false_iff_ne.mpr hne
    rw [List.lookup_cons]
    simp only [hb]
    exact lookup_eq_none_of_not_mem l a (fun hm => h (List.mem_cons_of_mem _ hm))

/-- A present key has a `lookup` value. -/
theorem lookup_isSome_of_mem {β : Type} :
    ∀ (l : List (Char × β)) (a : Char), a ∈ l.map Prod.fst → ∃ v, l.lookup a = some v
  | [], _, h => by simp at h
  | (k, v) :: l, a, h => by
    by_cases he : a = k
    · have hb : (a == k) = true := beq_iff_eq.mpr he
      exact ⟨v, by rw [List.lookup_cons]; simp only [hb]⟩
    · have hb : (a == k) = false := beq_eq_false_iff_ne.mpr he
      have hmem : a ∈ l.map Prod.fst := by
        rcases List.mem_cons.mp h with h1 | h1
        · exact absurd h1 he
        · exact h1
      obtain ⟨w, hw⟩ := lookup_isSome_of_mem l a hmem
      exact ⟨w, by rw [List.lookup_cons]; simp only [hb]; exact hw⟩

/-- A `lookup` value is one of the stored values. -/
theorem lookup_mem_snd {β : Type} :
    ∀ (l : List (Char × β)) (a : Char) (v : β), l.lookup a = some v → v ∈ l.map Prod.snd
  | [], _, _, h => by simp [List.lookup] at h
  | (k, w) :: l, a, v, h => by
    rw [List.lookup_cons] at h
    by_cases he : a = k
    · have hb : (a == k) = true := beq_iff_eq.mpr he
      simp only [hb, Option.some.injEq] at h
      simp [← h]
    · have hb : (a == k) = false := beq_eq_false_iff_ne.mpr he
      simp only [hb] at h
      exact List.mem_cons_of_mem _ (lookup_mem_snd l a v h)

/-- A `lookup` hit means the key is present. -/
theorem lookup_mem_fst {β : Type} :
    ∀ (l : List (Char × β)) (a : Char) (v : β), l.lookup a = some v → a ∈ l.map Prod.fst
  | [], _, _, h => by simp [List.lookup] at h
  | (k, w) :: l, a, v, h => by
    rw [List.lookup_cons] at h
    by_cases he : a = k
    · simp [he]
    · have hb : (a == k) = false := beq_eq_false_iff_ne.mpr he
      simp only [hb] at h
      exact List.mem_cons_of_mem _ (lookup_mem_fst l a v h)

/-- With pairwise-distinct keys, every entry whose key was looked up carries
the looked-up value. -/
theorem lookup_val_of_nodup {β : Type} :
    ∀ (l : List (Char × β)) (a : Char) (v : β), (l.map Prod.fst).Nodup →
      l.lookup a = some v → ∀ e ∈ l, e.1 = a → e.2 = v
  | [], _, _, _, _, e, he, _ => by simp at he
  | (k, w) :: l, a, v, hnd, h, e, he, hea => by
    rw [List.lookup_cons] at h
    have hnd' := List.nodup_cons.mp hnd
    by_cases hak : a = k
    · have hb : (a == k) = true := beq_iff_eq.mpr hak
      simp only [hb, Option.some.injEq] at h
      rcases List.mem_cons.mp he with rfl | he'
      · exact h ▸ rfl
      · exfalso
        apply hnd'.1
        have hmf : e.1 ∈ l.map Prod.fst := List.mem_map_of_mem Prod.fst he'
        rwa [hea, hak] at hmf
    · have hb : (a == k) = false := beq_eq_false_iff_ne.mpr hak
      simp only [hb] at h
      rcases List.mem_cons.mp he with rfl | he'
      · exact absurd hea.symm hak
      · exact lookup_val_of_nodup l a v hnd'.2 h e he' hea

/-- A filter and its complement split the length of a list. -/
theorem length_filter_split {α : Type} (p : α → Bool) :
    ∀ (l : List α), (l.filter p).length + (l.filter (fun x => !(p x))).length = l.length
  | [] => rfl
  | x :: l => by
    have ih := length_filter_split p l
    by_cases hx : p x = true
    · simp [List.filter_cons, hx]
      omega
    · have hx' : p x = false := by simpa using hx
      simp [List.filter_cons, hx']
      omega

/-- Filtering a duplicate-free list down to a duplicate-free subset is a
permutation of that subset. -/
theorem filter_mem_perm (l m : List Char) (hm : m.Nodup) (hl : l.Nodup) (hs : l ⊆ m) :
    (m.filter (fun x => decide (x ∈ l))).Perm l := by
  rw [List.perm_iff_count]
  intro x
  by_cases hx : x ∈ l
  · rw [List.count_filter (by simpa using hx)]
    rw [List.count_eq_one_of_mem hm (hs hx), List.count_eq_one_of_mem hl hx]
  · rw [List.count_eq_zero_of_not_mem hx,
      List.count_eq_zero_of_not_mem (fun hmem => hx (by simpa using (List.mem_filter.mp hmem).2))]

/-- Appending the missing elements of `m` to a duplicate-free `l ⊆ m` is a
permutation of `m`. -/
theorem append_filter_not_mem_perm (l m : List Char) (hl : l.Nodup) (hm : m.Nodup)
    (hs : l ⊆ m) : (l ++ m.filter (fun x => decide (x ∉ l))).Perm m := by
  rw [List.perm_iff_count]
  intro x
  rw [List.count_append]
  by_cases hx : x ∈ l
  · rw [List.count_eq_one_of_mem hl hx, List.count_eq_one_of_mem hm (hs hx)]
    rw [List.count_eq_zero_of_not_mem
      (fun hmem => by simpa [hx] using (List.mem_filter.mp hmem).2)]
  · rw [List.count_eq_zero_of_not_mem hx, List.count_filter (by simpa using hx)]
    exact Nat.zero_add _

/-- The two complementary filters of `create_frequency_key` have balanced
lengths: over a duplicate-free dictionary, removing the used letters leaves
`m.length - l.length` letters when `l` is duplicate-free and included in
`m`. -/
theorem length_filter_not_mem (l m : List Char) (hm : m.Nodup) (hl : l.Nodup) (hs : l ⊆ m) :
    (m.filter (fun x => decide (x ∉ l))).length = m.length - l.length := by
  have hsplit := length_filter_split (fun x => decide (x ∈ l)) m
  have hperm := (filter_mem_perm l m hm hl hs).length_eq
  have hcongr : (m.filter (fun x => !(decide (x ∈ l)))) =
      (m.filter (fun x => decide (x ∉ l))) := by
    apply List.filter_congr
    intro x _
    simp
  rw [hcongr] at hsplit
  omega

/-- Uppercasing a character never yields a lowercase letter that the regex
keeps: a kept character of the cleaned text is an uppercase letter. -/
theorem upperChar_mem_azUpper (d : Char) (h : upperChar d ∈ asciiLetters) :
    upperChar d ∈ azUpper := by
  by_cases hd : d ∈ azLower
  · have hall : ∀ x ∈ azLower, upperChar x ∈ azUpper := by decide
    exact hall d hd
  · have hfst : (azLower.zip azUpper).map Prod.fst = azLower := by decide
    have hnone : (azLower.zip azUpper).lookup d = none :=
      lookup_eq_none_of_not_mem _ d (by rw [hfst]; exact hd)
    have hid : upperChar d = d := by rw [upperChar, hnone]; rfl
    rw [hid] at h ⊢
    rcases List.mem_append.mp h with h1 | h1
    · exact h1
    · exact absurd h1 hd

/-- Every character of the cleaned text is an uppercase letter. -/
theorem clean_text_mem_azUpper (s : List Char) (c : Char) (h : c ∈ clean_text s) :
    c ∈ azUpper := by
  rw [clean_text, List.mem_filter] at h
  obtain ⟨hmem, hpred⟩ := h
  obtain ⟨d, _, rfl⟩ := List.mem_map.mp hmem
  exact upperChar_mem_azUpper d (by simpa using hpred)

/-- The cipher letters of `analyze_frequency`, in frequency order, are a
permutation of the distinct letters of the cleaned text. -/
theorem analyze_frequency_fst_perm (t : List Char) :
    ((analyze_frequency t).map Prod.fst).Perm (firstDedup (clean_text t)) := by
  rw [analyze_frequency]
  by_cases h : (clean_text t).length = 0
  · rw [if_pos h]
    have : clean_text t = [] := List.length_eq_zero.mp h
    rw [this]
    rfl
  · rw [if_neg h]
    have hperm := (List.perm_insertionSort (fun a b : Char × ℚ => b.2 ≤ a.2)
      ((firstDedup (clean_text t)).map
        (fun c => (c, ((clean_text t).count c : ℚ) / ((clean_text t).length : ℚ) * 100)))).map
      Prod.fst
    rw [List.map_map] at hperm
    rw [show (Prod.fst ∘ fun c : Char =>
        (c, ((clean_text t).count c : ℚ) / ((clean_text t).length : ℚ) * 100)) = id from rfl,
      List.map_id] at hperm
    exact hperm

/-- C1, frequency seeding: for every ciphertext, `create_frequency_key` over
the default dictionary is a total bijection on the 26 uppercase letters — its
cipher-letter domain and its plain-letter range are each a permutation of
`A..Z` (hence duplicate-free), and every letter of the cleaned ciphertext is
in the domain. -/
theorem create_frequency_key_bijection (t : List Char) :
    (keyLetters (create_frequency_key azUpper t)).Perm azUpper ∧
    ((create_frequency_key azUpper t).map Prod.snd).Perm azUpper ∧
    (∀ c ∈ clean_text t, c ∈ keyLetters (create_frequency_key azUpper t)) := by
  have haz_nodup : azUpper.Nodup := by decide
  have haz_len : azUpper.length = 26 := rfl
  have hfo_nodup : freq_order.Nodup := by decide
  have hfo_len : freq_order.length = 26 := rfl
  have hfo_sub : freq_order ⊆ azUpper := by
    rw [List.subset_def]
    decide
  have hcoperm : ((analyze_frequency t).map Prod.fst).Perm (firstDedup (clean_text t)) :=
    analyze_frequency_fst_perm t
  set co := (analyze_frequency t).map Prod.fst with hco
  have hconodup : co.Nodup := hcoperm.nodup_iff.mpr (firstDedup_nodup _)
  have hcosub : co ⊆ azUpper := fun c hc =>
    clean_text_mem_azUpper t c ((firstDedup_mem _ c).mp (hcoperm.subset hc))
  have hcolen : co.length ≤ 26 := by
    have h := nodup_length_le co azUpper hconodup hcosub
    rwa [haz_len] at h
  have hfst_init : (co.zip freq_order).map Prod.fst = co :=
    List.map_fst_zip co freq_order (by rw [hfo_len]; exact hcolen)
  have hsnd_init : (co.zip freq_order).map Prod.snd = freq_order.take co.length :=
    map_snd_zip_eq_take co freq_order (by rw [hfo_len]; exact hcolen)
  set used := freq_order.take co.length with hused
  have hused_nodup : used.Nodup := (List.take_sublist _ _).nodup hfo_nodup
  have hused_sub : used ⊆ azUpper := fun x hx => hfo_sub ((List.take_sublist _ _).subset hx)
  have hused_len : used.length = co.length := by
    rw [hused, List.length_take, hfo_len]
    exact Nat.min_eq_left hcolen
  have hpred_c : (fun l => decide (l ∉ keyLetters (co.zip freq_order))) =
      (fun l => decide (l ∉ co)) := by
    funext l
    rw [keyLetters, hfst_init]
  have hpred_p : (fun l => decide (l ∉ (co.zip freq_order).map Prod.snd)) =
      (fun l => decide (l ∉ used)) := by
    funext l
    rw [hsnd_init, hused]
  have hkey : create_frequency_key azUpper t =
      (co.zip freq_order) ++
        ((azUpper.filter (fun l => decide (l ∉ co))).zip
          (azUpper.filter (fun l => decide (l ∉ used)))) := by
    rw [create_frequency_key]
    rw [← hco, ← hpred_c, ← hpred_p]
  set rc := azUpper.filter (fun l => decide (l ∉ co)) with hrc
  set rp := azUpper.filter (fun l => decide (l ∉ used)) with hrp
  have hrc_len : rc.length = 26 - co.length := by
    rw [hrc, length_filter_not_mem co azUpper haz_nodup hconodup hcosub, haz_len]
  have hrp_len : rp.length = 26 - co.length := by
    rw [hrp, length_filter_not_mem used azUpper haz_nodup hused_nodup hused_sub, haz_len,
      hused_len]
  have hfst_key : keyLetters (create_frequency_key azUpper t) = co ++ rc := by
    rw [keyLetters, hkey, List.map_append, hfst_init,
      List.map_fst_zip rc rp (by rw [hrc_len, hrp_len])]
  have hsnd_key : (create_frequency_key azUpper t).map Prod.snd = used ++ rp := by
    rw [hkey, List.map_append, hsnd_init,
      List.map_snd_zip rc rp (by rw [hrc_len, hrp_len])]
  refine ⟨?_, ?_, ?_⟩
  · rw [hfst_key, hrc]
    exact append_filter_not_mem_perm co azUpper hconodup haz_nodup hcosub
  · rw [hsnd_key, hrp]
    exact append_filter_not_mem_perm used azUpper hused_nodup haz_nodup hused_sub
  · intro c hcmem
    rw [hfst_key]
    apply List.mem_append_left
    exact hcoperm.mem_iff.mpr ((firstDedup_mem _ c).mpr hcmem)

/-- Value-count bookkeeping of the dict-level swap: exchanging the values at
keys `a` and `b` moves one `va` to `vb` and one `vb` to `va`, leaving all
value multiplicities balanced. -/
theorem swap_count (a b va vb x : Char) :
    ∀ (k : Key),
      (∀ e ∈ k, (e.1 = a → e.2 = va) ∧ (e.1 = b → e.2 = vb)) →
      ((k.map (fun e => if e.1 = a then (e.1, vb) else if e.1 = b then (e.1, va) else e)).map
          Prod.snd).count x +
        (k.map Prod.fst).count a * (if va = x then 1 else 0) +
        (k.map Prod.fst).count b * (if vb = x then 1 else 0) =
      (k.map Prod.snd).count x +
        (k.map Prod.fst).count a * (if vb = x then 1 else 0) +
        (k.map Prod.fst).count b * (if va = x then 1 else 0)
  | [], _ => by simp
  | e :: k, h => by
    have ih := swap_count a b va vb x k (fun e' he' => h e' (List.mem_cons_of_mem _ he'))
    have hea := (h e (List.mem_cons_self _ _)).1
    have heb := (h e (List.mem_cons_self _ _)).2
    by_cases h1 : e.1 = a
    · have hv : e.2 = va := hea h1
      by_cases hab : a = b
      · have hvab : va = vb := by
          rw [← hv]
          exact heb (by rw [h1, hab])
        subst hvab
        have hmap : ∀ e' ∈ e :: k,
            (if e'.1 = a then (e'.1, va) else if e'.1 = b then (e'.1, va) else e') = e' := by
          intro e' he'
          by_cases ha' : e'.1 = a
          · rw [if_pos ha', ← (h e' he').1 ha']
          · by_cases hb' : e'.1 = b
            · rw [if_neg ha', if_pos hb', ← (h e' he').2 hb']
            · rw [if_neg ha', if_neg hb']
        have hmape : (e :: k).map
            (fun e' => if e'.1 = a then (e'.1, va) else if e'.1 = b then (e'.1, va) else e') =
            e :: k := by
          rw [List.map_congr_left hmap]
          simp
        rw [hmape]
      · simp only [List.map_cons, List.count_cons, beq_iff_eq] at ih ⊢
        simp only [if_pos h1, h1, hv, eq_self_iff_true, if_true, if_neg hab, if_false] at ih ⊢
        split_ifs at ih ⊢ <;> omega
    · by_cases h2 : e.1 = b
      · have hv : e.2 = vb := heb h2
        have hab : ¬a = b := fun he => h1 (by rw [h2, ← he])
        have hba : ¬b = a := fun he => hab he.symm
        simp only [List.map_cons, List.count_cons, beq_iff_eq] at ih ⊢
        simp only [if_neg h1, if_pos h2, h2, hv, eq_self_iff_true, if_true, if_neg hba,
          if_false] at ih ⊢
        split_ifs at ih ⊢ <;> omega
      · simp only [List.map_cons, List.count_cons, beq_iff_eq] at ih ⊢
        simp only [if_neg h1, if_neg h2, if_false] at ih ⊢
        split_ifs at ih ⊢ <;> omega

/-- The dict-level swap body never changes the keys. -/
theorem map_body_fst (a b va vb : Char) : ∀ (k : Key),
    ((k.map (fun e => if e.1 = a then (e.1, vb) else if e.1 = b then (e.1, va) else e)).map
      Prod.fst) = k.map Prod.fst
  | [] => rfl
  | e :: k => by
    simp only [List.map_cons, map_body_fst a b va vb k]
    congr 1
    split_ifs <;> rfl

/-- `swap_vals` preserves the cipher-letter domain, in order. -/
theorem swap_vals_fst (k : Key) (a b : Char) :
    (swap_vals k a b).map Prod.fst = k.map Prod.fst := by
  rw [swap_vals]
  rcases h1 : k.lookup a with _ | va
  · rfl
  · rcases h2 : k.lookup b with _ | vb
    · rfl
    · exact map_body_fst a b va vb k

/-- With pairwise-distinct keys, `swap_vals` permutes the plain-letter
values. -/
theorem swap_vals_snd_perm (k : Key) (a b : Char) (hnd : (k.map Prod.fst).Nodup) :
    ((swap_vals k a b).map Prod.snd).Perm (k.map Prod.snd) := by
  rw [swap_vals]
  rcases h1 : k.lookup a with _ | va
  · exact List.Perm.refl _
  · rcases h2 : k.lookup b with _ | vb
    · exact List.Perm.refl _
    · dsimp only
      rw [List.perm_iff_count]
      intro x
      have hcount := swap_count a b va vb x k (fun e he =>
        ⟨fun hea => lookup_val_of_nodup k a va hnd h1 e he hea,
         fun heb => lookup_val_of_nodup k b vb hnd h2 e he heb⟩)
      have hca : (k.map Prod.fst).count a = 1 :=
        List.count_eq_one_of_mem hnd (lookup_mem_fst k a va h1)
      have hcb : (k.map Prod.fst).count b = 1 :=
        List.count_eq_one_of_mem hnd (lookup_mem_fst k b vb h2)
      rw [hca, hcb] at hcount
      split_ifs at hcount <;> omega

/-- C1, swap mutation (also the SA/hill-climbing neighbor move): `mutate`
keeps the domain unchanged and keeps the values a permutation of the
original values, so every mutation of a valid bijection is a valid
bijection, for every draw. -/
theorem mutate_preserves_bijection (k : Key) (draw : ℕ × ℕ)
    (hf : (k.map Prod.fst).Nodup) (hs : (k.map Prod.snd).Nodup) :
    keyLetters (mutate k draw) = keyLetters k ∧
    ((mutate k draw).map Prod.snd).Perm (k.map Prod.snd) ∧
    ((mutate k draw).map Prod.snd).Nodup := by
  rw [mutate]
  split_ifs with h
  · refine ⟨?_, ?_, ?_⟩
    · rw [keyLetters, keyLetters]
      exact swap_vals_fst k _ _
    · exact swap_vals_snd_perm k _ _ hf
    · exact ((swap_vals_snd_perm k _ _ hf).nodup_iff).mpr hs
  · exact ⟨rfl, List.Perm.refl _, hs⟩

/-- Invariant of the crossover per-letter loop: starting from a partial child
whose used-values list is exact, duplicate-free and inside the dictionary,
the loop returns a child with duplicate-free cipher letters and
duplicate-free dictionary values, whose domain sits between the partial
child's and the remaining parent letters. -/
theorem crossover_go_spec (p2 : Key) (coins : ℕ → Bool) (dict : List Char)
    (hp2 : ∀ v ∈ p2.map Prod.snd, v ∈ dict) :
    ∀ (rest : List (Char × Char)) (i : ℕ) (child : Key) (used : List Char),
      used = child.map Prod.snd →
      ((child.map Prod.fst) ++ (rest.map Prod.fst)).Nodup →
      used.Nodup →
      (∀ v ∈ used, v ∈ dict) →
      (∀ e ∈ rest, e.2 ∈ dict) →
      (∀ e ∈ rest, e.1 ∈ p2.map Prod.fst) →
      ((crossover_go p2 coins i rest child used).2 =
         (crossover_go p2 coins i rest child used).1.map Prod.snd ∧
       ((crossover_go p2 coins i rest child used).1.map Prod.fst).Nodup ∧
       (crossover_go p2 coins i rest child used).2.Nodup ∧
       (∀ c ∈ (crossover_go p2 coins i rest child used).1.map Prod.fst,
          c ∈ child.map Prod.fst ∨ c ∈ rest.map Prod.fst) ∧
       (∀ c ∈ child.map Prod.fst,
          c ∈ (crossover_go p2 coins i rest child used).1.map Prod.fst) ∧
       (∀ v ∈ (crossover_go p2 coins i rest child used).2, v ∈ dict))
  | [], i, child, used, h1, h2, h3, h4, _, _ => by
    rw [crossover_go]
    have h2'' : (child.map Prod.fst).Nodup := by
      have h := h2
      simp only [List.map_nil, List.append_nil] at h
      exact h
    exact ⟨h1, h2'', h3, fun c hc => Or.inl hc, fun c hc => hc, h4⟩
  | e :: rest, i, child, used, h1, h2, h3, h4, h5, h6 => by
    have hpl_dict : (if coins i then e.2 else ((p2.lookup e.1).getD 'A')) ∈ dict := by
      by_cases hc : coins i
      · rw [if_pos hc]
        exact h5 e (List.mem_cons_self _ _)
      · rw [if_neg hc]
        obtain ⟨v, hv⟩ := lookup_isSome_of_mem p2 e.1 (h6 e (List.mem_cons_self _ _))
        rw [hv]
        exact hp2 v (lookup_mem_snd p2 e.1 v hv)
    have h2' : ((child.map Prod.fst) ++ (rest.map Prod.fst)).Nodup :=
      ((List.sublist_cons_self e.1 (rest.map Prod.fst)).append_left _).nodup h2
    by_cases hmem : (if coins i then e.2 else ((p2.lookup e.1).getD 'A')) ∈ used
    · rw [crossover_go]
      simp only [if_pos hmem]
      have ih := crossover_go_spec p2 coins dict hp2 rest (i + 1) child used h1 h2' h3 h4
        (fun e' he' => h5 e' (List.mem_cons_of_mem _ he'))
        (fun e' he' => h6 e' (List.mem_cons_of_mem _ he'))
      refine ⟨ih.1, ih.2.1, ih.2.2.1, ?_, ih.2.2.2.2.1, ih.2.2.2.2.2⟩
      intro c hc
      rcases ih.2.2.2.1 c hc with h | h
      · exact Or.inl h
      · exact Or.inr (by simp only [List.map_cons]; exact List.mem_cons_of_mem _ h)
    · rw [crossover_go]
      simp only [if_neg hmem]
      have hch1 : used ++ [if coins i then e.2 else ((p2.lookup e.1).getD 'A')] =
          (child ++ [(e.1, if coins i then e.2 else ((p2.lookup e.1).getD 'A'))]).map
            Prod.snd := by
        rw [List.map_append, ← h1]
        rfl
      have hch2 : (((child ++ [(e.1, if coins i then e.2 else ((p2.lookup e.1).getD 'A'))]).map
          Prod.fst) ++ (rest.map Prod.fst)).Nodup := by
        rw [List.map_append]
        have heq : (child.map Prod.fst) ++
            (([(e.1, if coins i then e.2 else ((p2.lookup e.1).getD 'A'))]).map Prod.fst) ++
            (rest.map Prod.fst) =
            (child.map Prod.fst) ++ ((e :: rest).map Prod.fst) := by
          rw [List.append_assoc]
          rfl
        rw [heq]
        exact h2
      have hch3 : (used ++ [if coins i then e.2 else ((p2.lookup e.1).getD 'A')]).Nodup := by
        rw [List.nodup_append]
        exact ⟨h3, List.nodup_singleton _, fun x hx hx' => by
          rw [List.mem_singleton] at hx'
          rw [hx'] at hx
          exact hmem hx⟩
      have hch4 : ∀ v ∈ used ++ [if coins i then e.2 else ((p2.lookup e.1).getD 'A')],
          v ∈ dict := by
        intro v hv
        rcases List.mem_append.mp hv with h | h
        · exact h4 v h
        · rw [List.mem_singleton] at h
          rw [h]
          exact hpl_dict
      have ih := crossover_go_spec p2 coins dict hp2 rest (i + 1)
        (child ++ [(e.1, if coins i then e.2 else ((p2.lookup e.1).getD 'A'))])
        (used ++ [if coins i then e.2 else ((p2.lookup e.1).getD 'A')])
        hch1 hch2 hch3 hch4
        (fun e' he' => h5 e' (List.mem_cons_of_mem _ he'))
        (fun e' he' => h6 e' (List.mem_cons_of_mem _ he'))
      refine ⟨ih.1, ih.2.1, ih.2.2.1, ?_, ?_, ih.2.2.2.2.2⟩
      · intro c hc
        rcases ih.2.2.2.1 c hc with h | h
        · rw [List.map_append, List.mem_append] at h
          rcases h with h | h
          · exact Or.inl h
          · simp only [List.map_cons] at h ⊢
            rcases List.mem_singleton.mp (by simpa using h) with h'
            exact Or.inr (by rw [h']; exact List.mem_cons_self _ _)
        · exact Or.inr (by simp only [List.map_cons]; exact List.mem_cons_of_mem _ h)
      · intro c hc
        apply ih.2.2.2.2.1
        rw [List.map_append, List.mem_append]
        exact Or.inl hc

/-- C1, crossover: over a duplicate-free dictionary, for all valid parents —
duplicate-free domains and injective values inside the dictionary — with the
child-producing parent's domain contained in the other's, and every coin
sequence, the crossover child is a valid bijection: its domain is a
permutation of parent 1's domain and its values are pairwise distinct. -/
theorem crossover_valid (dict : List Char) (coins : ℕ → Bool) (p1 p2 : Key)
    (hdict : dict.Nodup)
    (hp1f : (p1.map Prod.fst).Nodup) (hp1s : (p1.map Prod.snd).Nodup)
    (hp1sub : ∀ v ∈ p1.map Prod.snd, v ∈ dict)
    (hp2sub : ∀ v ∈ p2.map Prod.snd, v ∈ dict)
    (hdom : ∀ c ∈ p1.map Prod.fst, c ∈ p2.map Prod.fst) :
    (keyLetters (crossover dict coins p1 p2)).Perm (keyLetters p1) ∧
    ((crossover dict coins p1 p2).map Prod.snd).Nodup := by
  have spec := crossover_go_spec p2 coins dict hp2sub p1 0 [] [] rfl
    (by simpa using hp1f) List.nodup_nil (by simp)
    (fun e he => hp1sub e.2 (List.mem_map_of_mem Prod.snd he))
    (fun e he => hdom e.1 (List.mem_map_of_mem Prod.fst he))
  set cg := crossover_go p2 coins 0 p1 [] [] with hcg
  obtain ⟨s1, s2, s3, s4, _, s6⟩ := spec
  have hsub : ∀ c ∈ cg.1.map Prod.fst, c ∈ p1.map Prod.fst := by
    intro c hc
    rcases s4 c hc with h | h
    · simp at h
    · exact h
  have hkey : crossover dict coins p1 p2 =
      cg.1 ++ (((keyLetters p1).filter (fun c => decide (c ∉ keyLetters cg.1))).zip
        (dict.filter (fun p => decide (p ∉ cg.2)))) := rfl
  set rc := (keyLetters p1).filter (fun c => decide (c ∉ keyLetters cg.1)) with hrcdef
  set rp := dict.filter (fun p => decide (p ∉ cg.2)) with hrpdef
  have hchlen : cg.2.length = (cg.1.map Prod.fst).length := by
    rw [s1, List.length_map, List.length_map]
  have hrc_len : rc.length = (p1.map Prod.fst).length - (cg.1.map Prod.fst).length := by
    rw [hrcdef, keyLetters, keyLetters]
    exact length_filter_not_mem _ _ hp1f s2 hsub
  have hrp_len : rp.length = dict.length - cg.2.length := by
    rw [hrpdef]
    exact length_filter_not_mem _ _ hdict s3 s6
  have hp1le : (p1.map Prod.fst).length ≤ dict.length := by
    have := nodup_length_le (p1.map Prod.snd) dict hp1s hp1sub
    rw [List.length_map] at this ⊢
    exact this
  have hrc_le_rp : rc.length ≤ rp.length := by
    rw [hrc_len, hrp_len, hchlen]
    omega
  constructor
  · rw [keyLetters, hkey, List.map_append, List.map_fst_zip rc rp hrc_le_rp, hrcdef,
      keyLetters, keyLetters]
    exact append_filter_not_mem_perm _ _ s2 hp1f hsub
  · rw [hkey, List.map_append, map_snd_zip_eq_take rc rp hrc_le_rp, ← s1]
    rw [List.nodup_append]
    refine ⟨s3, ?_, ?_⟩
    · exact (List.take_sublist _ _).nodup (List.Nodup.filter _ hdict)
    · intro x hx hx'
      have hxrp : x ∈ rp := (List.take_sublist _ _).subset hx'
      rw [hrpdef, List.mem_filter] at hxrp
      have := hxrp.2
      simp only [decide_eq_true_eq] at this
      exact this hx

/-- C1: every key produced by frequency seeding, by crossover, or by swap
mutation is a valid bijection. `create_frequency_key` (default dictionary)
always maps a domain that is a permutation of `A..Z` (covering every cipher
letter of the text) onto a permutation of `A..Z`; `crossover` of valid
parents with compatible domains yields a child total on parent 1's domain
with pairwise-distinct values, for every coin sequence; `mutate` of a valid
key keeps the domain and permutes the values, for every draw. -/
theorem seeding_and_mutation_bijective (t dict : List Char) (coins : ℕ → Bool)
    (p1 p2 k : Key) (draw : ℕ × ℕ)
    (hdict : dict.Nodup)
    (hp1f : (p1.map Prod.fst).Nodup) (hp1s : (p1.map Prod.snd).Nodup)
    (hp1sub : ∀ v ∈ p1.map Prod.snd, v ∈ dict)
    (hp2sub : ∀ v ∈ p2.map Prod.snd, v ∈ dict)
    (hdom : ∀ c ∈ p1.map Prod.fst, c ∈ p2.map Prod.fst)
    (hkf : (k.map Prod.fst).Nodup) (hks : (k.map Prod.snd).Nodup) :
    ((keyLetters (create_frequency_key azUpper t)).Perm azUpper ∧
     ((create_frequency_key azUpper t).map Prod.snd).Perm azUpper ∧
     (∀ c ∈ clean_text t, c ∈ keyLetters (create_frequency_key azUpper t))) ∧
    ((keyLetters (crossover dict coins p1 p2)).Perm (keyLetters p1) ∧
     ((crossover dict coins p1 p2).map Prod.snd).Nodup) ∧
    (keyLetters (mutate k draw) = keyLetters k ∧
     ((mutate k draw).map Prod.snd).Perm (k.map Prod.snd) ∧
     ((mutate k draw).map Prod.snd).Nodup) :=
  ⟨create_frequency_key_bijection t,
   crossover_valid dict coins p1 p2 hdict hp1f hp1s hp1sub hp2sub hdom,
   mutate_preserves_bijection k draw hkf hks⟩

/-- Witness for `seeding_and_mutation_bijective` on concrete parents, key,
coin sequence and draw. -/
theorem seeding_and_mutation_bijective_witness :
    ((['A', 'B'] : List Char).Nodup ∧
     (([(('X' : Char), ('A' : Char)), ('Y', 'B')] : Key).map Prod.fst).Nodup ∧
     (([(('X' : Char), ('A' : Char)), ('Y', 'B')] : Key).map Prod.snd).Nodup ∧
     (∀ v ∈ ([(('X' : Char), ('A' : Char)), ('Y', 'B')] : Key).map Prod.snd,
        v ∈ (['A', 'B'] : List Char)) ∧
     (∀ v ∈ ([(('X' : Char), ('B' : Char)), ('Y', 'A')] : Key).map Prod.snd,
        v ∈ (['A', 'B'] : List Char)) ∧
     (∀ c ∈ ([(('X' : Char), ('A' : Char)), ('Y', 'B')] : Key).map Prod.fst,
        c ∈ ([(('X' : Char), ('B' : Char)), ('Y', 'A')] : Key).map Prod.fst)) ∧
    ((keyLetters (create_frequency_key azUpper ['H', 'I'])).Perm azUpper ∧
     ((create_frequency_key azUpper ['H', 'I']).map Prod.snd).Perm azUpper ∧
     (∀ c ∈ clean_text ['H', 'I'],
        c ∈ keyLetters (create_frequency_key azUpper ['H', 'I']))) ∧
    ((keyLetters (crossover ['A', 'B'] (fun _ => true)
        [(('X' : Char), ('A' : Char)), ('Y', 'B')]
        [(('X' : Char), ('B' : Char)), ('Y', 'A')])).Perm
      (keyLetters [(('X' : Char), ('A' : Char)), ('Y', 'B')]) ∧
     ((crossover ['A', 'B'] (fun _ => true)
        [(('X' : Char), ('A' : Char)), ('Y', 'B')]
        [(('X' : Char), ('B' : Char)), ('Y', 'A')]).map Prod.snd).Nodup) ∧
    (keyLetters (mutate [(('X' : Char), ('A' : Char)), ('Y', 'B')] (0, 1)) =
       keyLetters [(('X' : Char), ('A' : Char)), ('Y', 'B')] ∧
     ((mutate [(('X' : Char), ('A' : Char)), ('Y', 'B')] (0, 1)).map Prod.snd).Perm
       (([(('X' : Char), ('A' : Char)), ('Y', 'B')] : Key).map Prod.snd) ∧
     ((mutate [(('X' : Char), ('A' : Char)), ('Y', 'B')] (0, 1)).map Prod.snd).Nodup) := by
  refine ⟨⟨by decide, by decide, by decide, by decide, by decide, by decide⟩, ?_⟩
  exact seeding_and_mutation_bijective ['H', 'I'] ['A', 'B'] (fun _ => true)
    [(('X' : Char), ('A' : Char)), ('Y', 'B')] [(('X' : Char), ('B' : Char)), ('Y', 'A')]
    [(('X' : Char), ('A' : Char)), ('Y', 'B')] (0, 1)
    (by decide) (by decide) (by decide) (by decide) (by decide) (by decide) (by decide)
    (by decide)

/-- Peel the last iteration off a simulated-annealing run. -/
theorem sa_go_succ (f : List Char → ℚ) (ct : List Char) (m : ℕ) (T0 : ℚ)
    (swaps : ℕ → ℕ × ℕ) (unif : ℕ → ℝ) : ∀ (fuel t : ℕ) (st : SAState),
    sa_go f ct m T0 swaps unif t (fuel + 1) st =
    sa_step f ct m T0 swaps unif (t + fuel) (sa_go f ct m T0 swaps unif t fuel st)
  | 0, t, st => by
    rw [Nat.add_zero]
    rfl
  | fuel + 1, t, st => by
    have h1 : sa_go f ct m T0 swaps unif t (fuel + 1 + 1) st =
        sa_go f ct m T0 swaps unif (t + 1) (fuel + 1)
          (sa_step f ct m T0 swaps unif t st) := rfl
    have h2 : sa_go f ct m T0 swaps unif t (fuel + 1) st =
        sa_go f ct m T0 swaps unif (t + 1) fuel
          (sa_step f ct m T0 swaps unif t st) := rfl
    rw [h1, sa_go_succ f ct m T0 swaps unif fuel (t + 1) _, ← h2,
      show t + 1 + fuel = t + (fuel + 1) from by omega]

/-- Peel the last iteration off a hill-climbing run. -/
theorem hill_go_succ (f : List Char → ℚ) (ct : List Char) (swaps : ℕ → ℕ × ℕ) :
    ∀ (fuel t : ℕ) (st : HillState),
    hill_go f ct swaps t (fuel + 1) st =
    hill_step f ct swaps (t + fuel) (hill_go f ct swaps t fuel st)
  | 0, t, st => by
    rw [Nat.add_zero]
    rfl
  | fuel + 1, t, st => by
    have h1 : hill_go f ct swaps t (fuel + 1 + 1) st =
        hill_go f ct swaps (t + 1) (fuel + 1) (hill_step f ct swaps t st) := rfl
    have h2 : hill_go f ct swaps t (fuel + 1) st =
        hill_go f ct swaps (t + 1) fuel (hill_step f ct swaps t st) := rfl
    rw [h1, hill_go_succ f ct swaps fuel (t + 1) _, ← h2,
      show t + 1 + fuel = t + (fuel + 1) from by omega]

/-- C3 (amended): with `initial_temp = 0` and the same scoring function,
simulated annealing accepts exactly hill climbing's moves: given the same
ciphertext, initial key, budget and neighbor-proposal sequence, on any run
in which hill climbing's early-termination breaks never fire (in particular
its stagnation cutoff of 201 consecutive non-improving proposals), both end
with the same key, the same score and the same accepted-move count, and SA's
best-ever pair coincides with its final walk state. -/
theorem sa_zero_temp_matches_hill_climb (f : List Char → ℚ) (ct : List Char) (k0 : Key)
    (m : ℕ) (swaps : ℕ → ℕ × ℕ) (unif : ℕ → ℝ)
    (hnb : ∀ i, i ≤ m → (hill_after f ct k0 swaps i).done = false) :
    (simulated_annealing_gen f ct k0 m 0 swaps unif).currentKey =
      (hill_after f ct k0 swaps m).currentKey ∧
    (simulated_annealing_gen f ct k0 m 0 swaps unif).currentScore =
      (hill_after f ct k0 swaps m).currentScore ∧
    (simulated_annealing_gen f ct k0 m 0 swaps unif).bestKey =
      (hill_after f ct k0 swaps m).currentKey ∧
    (simulated_annealing_gen f ct k0 m 0 swaps unif).bestScore =
      (hill_after f ct k0 swaps m).currentScore ∧
    (simulated_annealing_gen f ct k0 m 0 swaps unif).improvements =
      (hill_after f ct k0 swaps m).improvements ∧
    (simulated_annealing_gen f ct k0 m 0 swaps unif).accepted =
      (hill_after f ct k0 swaps m).improvements := by
  have key : ∀ i, i ≤ m →
      ((sa_after f ct k0 m 0 swaps unif i).currentKey =
        (hill_after f ct k0 swaps i).currentKey ∧
       (sa_after f ct k0 m 0 swaps unif i).currentScore =
        (hill_after f ct k0 swaps i).currentScore ∧
       (sa_after f ct k0 m 0 swaps unif i).bestKey =
        (sa_after f ct k0 m 0 swaps unif i).currentKey ∧
       (sa_after f ct k0 m 0 swaps unif i).bestScore =
        (sa_after f ct k0 m 0 swaps unif i).currentScore ∧
       (sa_after f ct k0 m 0 swaps unif i).improvements =
        (hill_after f ct k0 swaps i).improvements ∧
       (sa_after f ct k0 m 0 swaps unif i).accepted =
        (hill_after f ct k0 swaps i).improvements ∧
       (sa_after f ct k0 m 0 swaps unif i).done = false) := by
    intro i
    induction i with
    | zero => exact fun _ => ⟨rfl, rfl, rfl, rfl, rfl, rfl, rfl⟩
    | succ i ih =>
      intro hi
      have hi' : i ≤ m := Nat.le_of_succ_le hi
      obtain ⟨e1, e2, e3, e4, e5, e6, e7⟩ := ih hi'
      have hdone1 := hnb (i + 1) hi
      have hdone0 := hnb i hi'
      have hsa : sa_after f ct k0 m 0 swaps unif (i + 1) =
          sa_step f ct m 0 swaps unif i (sa_after f ct k0 m 0 swaps unif i) := by
        rw [sa_after, sa_after, sa_go_succ, Nat.zero_add]
      have hhill : hill_after f ct k0 swaps (i + 1) =
          hill_step f ct swaps i (hill_after f ct k0 swaps i) := by
        rw [hill_after, hill_after, hill_go_succ, Nat.zero_add]
      rw [hsa, hhill]
      rw [hhill] at hdone1
      set S := sa_after f ct k0 m 0 swaps unif i with hS
      set H := hill_after f ct k0 swaps i with hH
      by_cases hlen : (keyLetters H.currentKey).length < 2
      · exfalso
        rw [hill_step] at hdone1
        rw [if_neg (by rw [hdone0]; simp)] at hdone1
        rw [if_pos hlen] at hdone1
        simp at hdone1
      · set nk := swap_vals H.currentKey ((keyLetters H.currentKey).getD (swaps i).1 'A')
          ((keyLetters H.currentKey).getD (swaps i).2 'A') with hnk
        set ns := f (apply_substitution_key ct nk) with hns
        have hSstep : sa_step f ct m 0 swaps unif i S =
            (if ns > H.currentScore then
              sa_accept { S with improvements := S.improvements + 1 } nk ns
             else S) := by
          rw [sa_step]
          rw [if_neg (by rw [e7]; simp)]
          rw [e1, e2]
          rw [if_neg hlen]
          have htemp : ¬(0 : ℚ) < saTemperature 0 m i := by
            rw [saTemperature, zero_mul]
            exact lt_irrefl 0
          dsimp only
          rw [← hnk, ← hns]
          by_cases himp : ns > H.currentScore
          · rw [if_pos himp, if_pos himp]
          · rw [if_neg himp, if_neg himp, if_neg htemp]
        have hHstep : hill_step f ct swaps i H =
            (if (if ns > H.currentScore then { H with currentKey := nk, currentScore := ns, improvements := H.improvements + 1, noImp := 0 } else { H with noImp := H.noImp + 1 }).noImp > 200 then
              { (if ns > H.currentScore then { H with currentKey := nk, currentScore := ns, improvements := H.improvements + 1, noImp := 0 } else { H with noImp := H.noImp + 1 }) with done := true }
             else
              (if ns > H.currentScore then { H with currentKey := nk, currentScore := ns, improvements := H.improvements + 1, noImp := 0 } else { H with noImp := H.noImp + 1 })) := by
          rw [hill_step]
          rw [if_neg (by rw [hdone0]; simp)]
          rw [if_neg hlen]
        rw [hSstep, hHstep]
        rw [hHstep] at hdone1
        by_cases himp : ns > H.currentScore
        · simp only [if_pos himp] at hdone1 ⊢
          rw [if_neg (show ¬(0 : ℕ) > 200 from by omega)]
          rw [sa_accept]
          dsimp only
          simp only [if_pos (show ns > S.bestScore from by rw [e4, e2]; exact himp)]
          simp [e5, e6, e7]
        · simp only [if_neg himp] at hdone1 ⊢
          by_cases hstag : H.noImp + 1 > 200
          · exfalso
            rw [if_pos hstag] at hdone1
            simp at hdone1
          · rw [if_neg hstag]
            exact ⟨e1, e2, e3, e4, e5, e6, e7⟩
  obtain ⟨e1, e2, e3, e4, e5, e6, _⟩ := key m (le_refl m)
  exact ⟨e1, e2, e3 ▸ e1, e4 ▸ e2, e5, e6⟩

set_option maxRecDepth 4000 in
/-- Witness for `sa_zero_temp_matches_hill_climb` on a concrete one-iteration
run. -/
theorem sa_zero_temp_matches_hill_climb_witness :
    (∀ i, i ≤ 1 → (hill_after Mono.calculate_english_score ['A']
        [(('A' : Char), ('B' : Char)), ('X', 'C')] (fun _ => (0, 1)) i).done = false) ∧
    ((simulated_annealing_gen Mono.calculate_english_score ['A']
        [(('A' : Char), ('B' : Char)), ('X', 'C')] 1 0 (fun _ => (0, 1))
        (fun _ => 0)).currentKey =
      (hill_after Mono.calculate_english_score ['A']
        [(('A' : Char), ('B' : Char)), ('X', 'C')] (fun _ => (0, 1)) 1).currentKey ∧
     (simulated_annealing_gen Mono.calculate_english_score ['A']
        [(('A' : Char), ('B' : Char)), ('X', 'C')] 1 0 (fun _ => (0, 1))
        (fun _ => 0)).currentScore =
      (hill_after Mono.calculate_english_score ['A']
        [(('A' : Char), ('B' : Char)), ('X', 'C')] (fun _ => (0, 1)) 1).currentScore ∧
     (simulated_annealing_gen Mono.calculate_english_score ['A']
        [(('A' : Char), ('B' : Char)), ('X', 'C')] 1 0 (fun _ => (0, 1))
        (fun _ => 0)).bestKey =
      (hill_after Mono.calculate_english_score ['A']
        [(('A' : Char), ('B' : Char)), ('X', 'C')] (fun _ => (0, 1)) 1).currentKey ∧
     (simulated_annealing_gen Mono.calculate_english_score ['A']
        [(('A' : Char), ('B' : Char)), ('X', 'C')] 1 0 (fun _ => (0, 1))
        (fun _ => 0)).bestScore =
      (hill_after Mono.calculate_english_score ['A']
        [(('A' : Char), ('B' : Char)), ('X', 'C')] (fun _ => (0, 1)) 1).currentScore ∧
     (simulated_annealing_gen Mono.calculate_english_score ['A']
        [(('A' : Char), ('B' : Char)), ('X', 'C')] 1 0 (fun _ => (0, 1))
        (fun _ => 0)).improvements =
      (hill_after Mono.calculate_english_score ['A']
        [(('A' : Char), ('B' : Char)), ('X', 'C')] (fun _ => (0, 1)) 1).improvements ∧
     (simulated_annealing_gen Mono.calculate_english_score ['A']
        [(('A' : Char), ('B' : Char)), ('X', 'C')] 1 0 (fun _ => (0, 1))
        (fun _ => 0)).accepted =
      (hill_after Mono.calculate_english_score ['A']
        [(('A' : Char), ('B' : Char)), ('X', 'C')] (fun _ => (0, 1)) 1).improvements) :=
  ⟨by with_unfolding_all decide, sa_zero_temp_matches_hill_climb
    Mono.calculate_english_score ['A'] [(('A' : Char), ('B' : Char)), ('X', 'C')] 1
    (fun _ => (0, 1)) (fun _ => 0) (by with_unfolding_all decide)⟩


/-- A common-words list none of whose entries occurs in the text contributes
no word bonus. -/
lemma word_bonus_zero_of_none : ∀ (words : List (List Char)) (clean : List Char),
    (∀ w ∈ words, contains_sub clean w = false) → word_bonus words clean = 0
  | [], _, _ => rfl
  | w :: ws, clean, h => by
    rw [word_bonus]
    simp only [List.map_cons, List.sum_cons]
    rw [h w (List.mem_cons_self w ws), if_neg (by decide), zero_add]
    exact word_bonus_zero_of_none ws clean (fun v hv => h v (List.mem_cons_of_mem _ hv))

/-- Letter counts of the one-letter texts of the divergence run. -/
lemma div_counter_T : counter_items ['T'] = [(('T' : Char), 1)] := by decide

/-- See `div_counter_T`. -/
lemma div_counter_E : counter_items ['E'] = [(('E' : Char), 1)] := by decide

/-- Expected frequency of `T` in the shared table. -/
lemma div_lookup_T : List.lookup 'T' lang_freq = some (91/10) := by
  with_unfolding_all decide

/-- Expected frequency of `E` in the shared table. -/
lemma div_lookup_E : List.lookup 'E' lang_freq = some (127/10) := by
  with_unfolding_all decide

/-- Frequency penalty of the one-letter text `T`: `(100 - 9.1)^2`. -/
lemma div_freq_T : freq_penalty ['T'] = 826281 / 100 := by
  rw [freq_penalty, div_counter_T]
  simp only [List.map_cons, List.map_nil, List.sum_cons, List.sum_nil, div_lookup_T]
  norm_num

/-- Frequency penalty of the one-letter text `E`: `(100 - 12.7)^2`. -/
lemma div_freq_E : freq_penalty ['E'] = 762129 / 100 := by
  rw [freq_penalty, div_counter_E]
  simp only [List.map_cons, List.map_nil, List.sum_cons, List.sum_nil, div_lookup_E]
  norm_num

set_option maxRecDepth 3000 in
/-- Improved-class score of the one-letter text `T`:
`-(100 - 9.1)^2 - 5`. -/
lemma score_T_impr : MonoImproved.calculate_english_score ['T'] = divScore := by
  have hw : ∀ w ∈ MonoImproved.common_words, contains_sub ['T'] w = false := by decide
  show english_score_with MonoImproved.common_words ['T'] = divScore
  rw [english_score_with, show clean_text ['T'] = ['T'] from by decide, if_neg (by decide),
    word_bonus_zero_of_none _ _ hw,
    div_freq_T,
    show bigram_bonus ['T'] = 0 from by with_unfolding_all decide,
    show trigram_bonus ['T'] = 0 from by with_unfolding_all decide,
    show double_letter_bonus ['T'] = 0 from by with_unfolding_all decide,
    show vowel_bonus ['T'] = -5 from by with_unfolding_all decide, divScore]
  norm_num

set_option maxRecDepth 3000 in
/-- Original-class score of the one-letter text `T`: the same value, since
neither word list contains a one-letter word other than `A` and `I`. -/
lemma score_T_mono : Mono.calculate_english_score ['T'] = divScore := by
  have hw : ∀ w ∈ Mono.common_words, contains_sub ['T'] w = false := by decide
  show english_score_with Mono.common_words ['T'] = divScore
  rw [english_score_with, show clean_text ['T'] = ['T'] from by decide, if_neg (by decide),
    word_bonus_zero_of_none _ _ hw,
    div_freq_T,
    show bigram_bonus ['T'] = 0 from by with_unfolding_all decide,
    show trigram_bonus ['T'] = 0 from by with_unfolding_all decide,
    show double_letter_bonus ['T'] = 0 from by with_unfolding_all decide,
    show vowel_bonus ['T'] = -5 from by with_unfolding_all decide, divScore]
  norm_num

set_option maxRecDepth 3000 in
/-- Improved-class score of the one-letter text `E`:
`-(100 - 12.7)^2 - 5`. -/
lemma score_E_impr : MonoImproved.calculate_english_score ['E'] = divScore2 := by
  have hw : ∀ w ∈ MonoImproved.common_words, contains_sub ['E'] w = false := by decide
  show english_score_with MonoImproved.common_words ['E'] = divScore2
  rw [english_score_with, show clean_text ['E'] = ['E'] from by decide, if_neg (by decide),
    word_bonus_zero_of_none _ _ hw,
    div_freq_E,
    show bigram_bonus ['E'] = 0 from by with_unfolding_all decide,
    show trigram_bonus ['E'] = 0 from by with_unfolding_all decide,
    show double_letter_bonus ['E'] = 0 from by with_unfolding_all decide,
    show vowel_bonus ['E'] = -5 from by with_unfolding_all decide, divScore2]
  norm_num

/-- Applying the divergence run's initial key to the ciphertext `A` gives
`T`. -/
lemma div_apply_T : apply_substitution_key divCiphertext divKey = ['T'] := by decide

/-- The score-neutral proposal of iterations `0 .. 200` swaps the values of
`X` and `Y`. -/
lemma div_swap_dead :
    swap_vals divKey ((keyLetters divKey).getD 1 'A') ((keyLetters divKey).getD 2 'A') =
      [(('A' : Char), ('T' : Char)), ('X', 'Z'), ('Y', 'E')] := by decide

/-- The swapped key still decrypts the ciphertext `A` to `T`. -/
lemma div_apply_dead :
    apply_substitution_key divCiphertext
      [(('A' : Char), ('T' : Char)), ('X', 'Z'), ('Y', 'E')] = ['T'] := by decide

/-- The improving proposal of iteration `201` swaps the values of `A` and
`X`. -/
lemma div_swap_final :
    swap_vals divKey ((keyLetters divKey).getD 0 'A') ((keyLetters divKey).getD 1 'A') =
      [(('A' : Char), ('E' : Char)), ('X', 'T'), ('Y', 'Z')] := by decide

/-- The improved key decrypts the ciphertext `A` to `E`. -/
lemma div_apply_final :
    apply_substitution_key divCiphertext
      [(('A' : Char), ('E' : Char)), ('X', 'T'), ('Y', 'Z')] = ['E'] := by decide

/-- The divergence run starts from the state both loops share: key `divKey`,
score `divScore`. -/
lemma div_sa_init :
    sa_init MonoImproved.calculate_english_score divCiphertext divKey =
      ⟨divKey, divScore, divKey, divScore, 0, 0, [], false⟩ := by
  rw [sa_init, div_apply_T, score_T_impr]

/-- During the first 201 iterations the proposal swaps the two letters absent
from the ciphertext, the score ties, the temperature is 0, so the SA state is
unchanged. -/
lemma div_sa_step_dead (t : ℕ) (ht : t < 201) :
    sa_step MonoImproved.calculate_english_score divCiphertext 202 0 divSwaps (fun _ => 0) t
      ⟨divKey, divScore, divKey, divScore, 0, 0, [], false⟩ =
    ⟨divKey, divScore, divKey, divScore, 0, 0, [], false⟩ := by
  have hsw : divSwaps t = (1, 2) := by
    simp only [divSwaps]
    rw [if_pos ht]
  rw [sa_step]
  rw [if_neg (by simp)]
  rw [if_neg (by decide)]
  rw [hsw]
  dsimp only
  rw [div_swap_dead, div_apply_dead, score_T_impr]
  rw [if_neg (gt_irrefl divScore)]
  rw [if_neg (show ¬(0 : ℚ) < saTemperature 0 202 t from by
    rw [saTemperature, zero_mul]
    exact lt_irrefl 0)]

/-- Iterating the rejected proposal leaves the SA state fixed. -/
lemma div_sa_go_dead : ∀ (fuel t : ℕ), t + fuel ≤ 201 →
    sa_go MonoImproved.calculate_english_score divCiphertext 202 0 divSwaps (fun _ => 0) t fuel
      ⟨divKey, divScore, divKey, divScore, 0, 0, [], false⟩ =
    ⟨divKey, divScore, divKey, divScore, 0, 0, [], false⟩
  | 0, _, _ => rfl
  | fuel + 1, t, h => by
    have h1 : sa_go MonoImproved.calculate_english_score divCiphertext 202 0 divSwaps
        (fun _ => 0) t (fuel + 1)
        (⟨divKey, divScore, divKey, divScore, 0, 0, [], false⟩ : SAState) =
      sa_go MonoImproved.calculate_english_score divCiphertext 202 0 divSwaps (fun _ => 0)
        (t + 1) fuel
        (sa_step MonoImproved.calculate_english_score divCiphertext 202 0 divSwaps
          (fun _ => 0) t ⟨divKey, divScore, divKey, divScore, 0, 0, [], false⟩) := rfl
    rw [h1, div_sa_step_dead t (by omega)]
    exact div_sa_go_dead fuel (t + 1) (by omega)

/-- At iteration 201 the proposal swaps the values of `A` and `X`, improving
the score, and SA accepts it. -/
lemma div_sa_step_final :
    sa_step MonoImproved.calculate_english_score divCiphertext 202 0 divSwaps (fun _ => 0) 201
      ⟨divKey, divScore, divKey, divScore, 0, 0, [], false⟩ =
    ⟨[(('A' : Char), ('E' : Char)), ('X', 'T'), ('Y', 'Z')], divScore2,
     [(('A' : Char), ('E' : Char)), ('X', 'T'), ('Y', 'Z')], divScore2, 1, 1,
     [divScore2], false⟩ := by
  have hsw : divSwaps 201 = (0, 1) := by decide
  have himp : divScore2 > divScore := by
    rw [divScore, divScore2]
    norm_num
  rw [sa_step]
  rw [if_neg (by simp)]
  rw [if_neg (by decide)]
  rw [hsw]
  dsimp only
  rw [div_swap_final, div_apply_final, score_E_impr]
  rw [if_pos himp]
  rw [sa_accept]
  dsimp only
  rw [if_pos himp]
  simp

/-- The full 202-iteration SA run on the divergence fixture: 201 rejections,
then one accepted improvement. -/
lemma div_sa_run :
    simulated_annealing divCiphertext divKey 202 0 divSwaps (fun _ => 0) =
      ⟨[(('A' : Char), ('E' : Char)), ('X', 'T'), ('Y', 'Z')], divScore2,
       [(('A' : Char), ('E' : Char)), ('X', 'T'), ('Y', 'Z')], divScore2, 1, 1,
       [divScore2], false⟩ := by
  have h2 := sa_go_succ MonoImproved.calculate_english_score divCiphertext 202 0 divSwaps
    (fun _ => 0) 201 0 (sa_init MonoImproved.calculate_english_score divCiphertext divKey)
  norm_num at h2
  rw [simulated_annealing, simulated_annealing_gen, sa_after, h2, div_sa_init,
    div_sa_go_dead 201 0 (by omega), div_sa_step_final]

/-- Hill climbing starts the divergence run from the same key and score. -/
lemma div_hill_init :
    hill_init Mono.calculate_english_score divCiphertext divKey =
      ⟨divKey, divScore, 0, 0, false⟩ := by
  rw [hill_init, div_apply_T, score_T_mono]

/-- During the first 201 iterations hill climbing rejects the score-tied
proposal and increments its stagnation counter. -/
lemma div_hill_step_dead (t n : ℕ) (ht : t < 201) (hn : n ≤ 199) :
    hill_step Mono.calculate_english_score divCiphertext divSwaps t
      ⟨divKey, divScore, 0, n, false⟩ =
    ⟨divKey, divScore, 0, n + 1, false⟩ := by
  have hsw : divSwaps t = (1, 2) := by
    simp only [divSwaps]
    rw [if_pos ht]
  rw [hill_step]
  rw [if_neg (by simp)]
  dsimp only
  rw [if_neg (by decide)]
  rw [hsw]
  dsimp only
  rw [div_swap_dead, div_apply_dead, score_T_mono]
  rw [if_neg (gt_irrefl divScore)]
  rw [if_neg (show ¬n + 1 > 200 from by omega)]

/-- Iterating the rejected proposal drives the stagnation counter up in step
with the iteration index. -/
lemma div_hill_go_dead : ∀ (fuel t : ℕ), t + fuel ≤ 200 →
    hill_go Mono.calculate_english_score divCiphertext divSwaps t fuel
      ⟨divKey, divScore, 0, t, false⟩ =
    ⟨divKey, divScore, 0, t + fuel, false⟩
  | 0, t, _ => by
    rw [Nat.add_zero]
    rfl
  | fuel + 1, t, h => by
    have h1 : hill_go Mono.calculate_english_score divCiphertext divSwaps t (fuel + 1)
        (⟨divKey, divScore, 0, t, false⟩ : HillState) =
      hill_go Mono.calculate_english_score divCiphertext divSwaps (t + 1) fuel
        (hill_step Mono.calculate_english_score divCiphertext divSwaps t
          ⟨divKey, divScore, 0, t, false⟩) := rfl
    rw [h1, div_hill_step_dead t t (by omega) (by omega),
      show t + (fuel + 1) = (t + 1) + fuel from by omega]
    exact div_hill_go_dead fuel (t + 1) (by omega)

/-- One hill-climbing iteration on the fixed point of the divergence run, for
any stagnation count: the proposal is rejected and the counter incremented,
breaking out if the counter passes 200. -/
lemma div_hill_step_any (t n : ℕ) (ht : t < 201) :
    hill_step Mono.calculate_english_score divCiphertext divSwaps t
      ⟨divKey, divScore, 0, n, false⟩ =
    (if n + 1 > 200 then (⟨divKey, divScore, 0, n + 1, true⟩ : HillState)
     else ⟨divKey, divScore, 0, n + 1, false⟩) := by
  have hsw : divSwaps t = (1, 2) := by
    simp only [divSwaps]
    rw [if_pos ht]
  rw [hill_step]
  rw [if_neg (by simp)]
  dsimp only
  rw [if_neg (by decide)]
  rw [hsw]
  dsimp only
  rw [div_swap_dead, div_apply_dead, score_T_mono]
  rw [if_neg (gt_irrefl divScore)]

/-- At iteration 200 the 201st consecutive rejection trips
`no_improvement_count > 200` and hill climbing breaks. -/
lemma div_hill_step_stag :
    hill_step Mono.calculate_english_score divCiphertext divSwaps 200
      ⟨divKey, divScore, 0, 200, false⟩ =
    ⟨divKey, divScore, 0, 201, true⟩ := by
  rw [div_hill_step_any 200 200 (by omega),
    if_pos (show (200 : ℕ) + 1 > 200 from by omega)]

/-- A broken-out hill-climbing state is final. -/
lemma hill_step_of_done (f : List Char → ℚ) (ct : List Char) (swaps : ℕ → ℕ × ℕ)
    (t : ℕ) (st : HillState) (h : st.done = true) :
    hill_step f ct swaps t st = st := by
  rw [hill_step, if_pos h]

/-- The divergence run's hill-climbing state after the break is final. -/
lemma div_hill_step_done :
    hill_step Mono.calculate_english_score divCiphertext divSwaps 201
      ⟨divKey, divScore, 0, 201, true⟩ =
    ⟨divKey, divScore, 0, 201, true⟩ :=
  hill_step_of_done _ _ _ _ _ rfl

/-- The full 202-iteration hill-climbing run on the divergence fixture: 201
rejections, then the stagnation break, so the improving proposal of iteration
201 is never tried. -/
lemma div_hill_run :
    hill_climb_key divCiphertext divKey 202 divSwaps =
      ⟨divKey, divScore, 0, 201, true⟩ := by
  have h2 := hill_go_succ Mono.calculate_english_score divCiphertext divSwaps 201 0
    (hill_init Mono.calculate_english_score divCiphertext divKey)
  have h3 := hill_go_succ Mono.calculate_english_score divCiphertext divSwaps 200 0
    (hill_init Mono.calculate_english_score divCiphertext divKey)
  norm_num at h2 h3
  rw [hill_climb_key, hill_after, h2, h3, div_hill_init,
    div_hill_go_dead 200 0 (by omega), Nat.zero_add, div_hill_step_stag, div_hill_step_done]

/-- C3 counterexample: with `initial_temp = 0`, the same ciphertext `A`, the
same initial key, the same 202-iteration budget and the same neighbor-proposal
sequence (201 score-neutral swaps of letters absent from the ciphertext, then
one improving swap), `simulated_annealing` and `hill_climb_key` do not return
the same key and score: hill climbing breaks out at its stagnation cutoff
(absent from SA) after 201 non-improving proposals, so it never tries the
improving move SA accepts, and the two also use different word lists in their
scorers. -/
theorem sa_zero_temp_hill_divergence :
    (simulated_annealing divCiphertext divKey 202 0 divSwaps (fun _ => 0)).bestKey ≠
      (hill_climb_key divCiphertext divKey 202 divSwaps).currentKey ∧
    (simulated_annealing divCiphertext divKey 202 0 divSwaps (fun _ => 0)).bestScore ≠
      (hill_climb_key divCiphertext divKey 202 divSwaps).currentScore ∧
    (simulated_annealing divCiphertext divKey 202 0 divSwaps (fun _ => 0)).accepted ≠
      (hill_climb_key divCiphertext divKey 202 divSwaps).improvements := by
  rw [div_sa_run, div_hill_run]
  refine ⟨by decide, ?_, by decide⟩
  show divScore2 ≠ divScore
  rw [divScore, divScore2]
  norm_num
